import Mathlib

/-! MorseCode: a verification development.

Shallow embedding of the two programs of the repository:

* `src/main.cpp`   : the symbol tree (`build_morse_tree`, `morse_segment_to_char`), the
  spaceless Q-code split search (`try_decode_spaceless_q`) and the stream buffer loop of `main`;
* `src/Decoder.cpp`: the exact-match tables (`morse`, `Qprefix`, `Qsuffix`), `greedy`,
  `decodeToken` and the tokenizer of `main`.

Conventions of the embedding.

* A `std::string` is a `List Char`; `s.substr(p, n)` is `(s.drop p).take n` and `s.substr(p)` is
  `s.drop p` (every call site in the source has `p ≤ s.size()`).
* A `MorseNode*` is a value of `MorseNode`: `MorseNode.null` is `nullptr`.
* The character `'\0'` is `NUL`.
* `int n = s.size()` is the conversion of an unsigned size to a 32-bit signed integer,
  `toInt`; the values compared with it are integers.
* The `int` counter `sp` of the tokenizer is a 32-bit signed integer: `sp++` is `int_succ`,
  which wraps from `2^31 - 1` to `-2^31` as the usual two's-complement targets do (the overflow
  itself is undefined behaviour in C++).
* The `int` loop variables `i` and `len` are natural numbers: they stay below the `int` bound
  they are compared with.
-/

namespace MorseCode

/-! ## Data of `src/main.cpp` -/

/-- The character `'\0'`, the label of a node on which no code ends. -/
def NUL : Char := Char.ofNat 0

/-- An entry of `MORSE_DEFINITIONS`: `struct MorseEntry { char character; const char* code; }`. -/
structure MorseEntry where
  character : Char
  code : List Char
deriving DecidableEq, Repr

/-- The table `MORSE_DEFINITIONS` of `src/main.cpp`, in source order. -/
def MORSE_DEFINITIONS : List MorseEntry := [
  ⟨'A', ".-".toList⟩, ⟨'B', "-...".toList⟩, ⟨'C', "-.-.".toList⟩, ⟨'D', "-..".toList⟩,
  ⟨'E', ".".toList⟩,
  ⟨'F', "..-.".toList⟩, ⟨'G', "--.".toList⟩, ⟨'H', "....".toList⟩, ⟨'I', "..".toList⟩,
  ⟨'J', ".---".toList⟩,
  ⟨'K', "-.-".toList⟩, ⟨'L', ".-..".toList⟩, ⟨'M', "--".toList⟩, ⟨'N', "-.".toList⟩,
  ⟨'O', "---".toList⟩,
  ⟨'P', ".--.".toList⟩, ⟨'Q', "--.-".toList⟩, ⟨'R', ".-.".toList⟩, ⟨'S', "...".toList⟩,
  ⟨'T', "-".toList⟩,
  ⟨'U', "..-".toList⟩, ⟨'V', "...-".toList⟩, ⟨'W', ".--".toList⟩, ⟨'X', "-..-".toList⟩,
  ⟨'Y', "-.--".toList⟩,
  ⟨'Z', "--..".toList⟩,
  ⟨'1', ".----".toList⟩, ⟨'2', "..---".toList⟩, ⟨'3', "...--".toList⟩, ⟨'4', "....-".toList⟩,
  ⟨'5', ".....".toList⟩,
  ⟨'6', "-....".toList⟩, ⟨'7', "--...".toList⟩, ⟨'8', "---..".toList⟩, ⟨'9', "----.".toList⟩,
  ⟨'0', "-----".toList⟩ ]

/-- The constant `NUM_MORSE_ENTRIES`: `sizeof(MORSE_DEFINITIONS) / sizeof(MORSE_DEFINITIONS[0])`. -/
def NUM_MORSE_ENTRIES : Nat := MORSE_DEFINITIONS.length

/-- The set `Q_CODES` of `src/main.cpp`; a `std::set<string>` is used only through `count`,
which is list membership here. -/
def Q_CODES : List (List Char) := [
  "QRA", "QRB", "QRC", "QRD", "QRE", "QRF", "QRG", "QRH", "QRI", "QRJ", "QRK", "QRL", "QRM",
  "QRN", "QRO", "QRP", "QRQ", "QRR", "QRS", "QRT", "QRU", "QRV", "QRW", "QRX", "QRY", "QRZ",
  "QSA", "QSB", "QSC", "QSD", "QSE", "QSF", "QSG", "QSH", "QSI", "QSJ", "QSK", "QSL", "QSM",
  "QSN", "QSO", "QSP", "QSQ", "QSR", "QSS", "QST", "QSU", "QSV", "QSW", "QSX", "QSY", "QSZ",
  "QTA", "QTB", "QTC", "QTD", "QTE", "QTF", "QTG", "QTH", "QTI", "QTJ", "QTK", "QTL", "QTM",
  "QTN", "QTO", "QTP", "QTQ", "QTR", "QTS", "QTT", "QTU", "QTV", "QTW", "QTX", "QTY", "QTZ",
  "QUA", "QUB", "QUC", "QUD", "QUE", "QUF", "QUG", "QUH", "QUI", "QUJ", "QUK", "QUL", "QUM",
  "QUN", "QUO", "QUP", "QUQ", "QUR", "QUS", "QUT", "QUU", "QUV", "QUW", "QUX", "QUY", "QUZ"
  ].map String.toList

/-- The node type: `struct MorseNode { char character; MorseNode* dot_child;
MorseNode* dash_child; }`, together with the null pointer. -/
inductive MorseNode where
  | null : MorseNode
  | node (character : Char) (dot_child dash_child : MorseNode) : MorseNode
deriving DecidableEq, Repr

/-- The constructor call `new MorseNode()`: label `'\0'`, both children null. -/
def MorseNode.fresh : MorseNode := MorseNode.node NUL MorseNode.null MorseNode.null

/-- The step `if (child == nullptr) child = new MorseNode();` of `build_morse_tree`. -/
def MorseNode.orFresh : MorseNode → MorseNode
  | MorseNode.null => MorseNode.fresh
  | n => n

/-- The inner loop and the final assignment of `build_morse_tree` for one table entry: walk
`morse_code` from `current_node`, creating the missing children, skip a symbol that is neither
`'.'` nor `'-'`, and write `character` into the node reached. The result is the subtree at
`current_node` after the mutation. `current_node` is never null in the source. -/
def insert_code : List Char → Char → MorseNode → MorseNode
  | _, _, MorseNode.null => MorseNode.null
  | [], character, MorseNode.node _ d s => MorseNode.node character d s
  | symbol :: rest, character, MorseNode.node c d s =>
    if symbol = '.' then MorseNode.node c (insert_code rest character d.orFresh) s
    else if symbol = '-' then MorseNode.node c d (insert_code rest character s.orFresh)
    else insert_code rest character (MorseNode.node c d s)

/-- The outer loop of `build_morse_tree` over a table, from a given root. -/
def build_from (table : List MorseEntry) (root : MorseNode) : MorseNode :=
  table.foldl (fun r e => insert_code e.code e.character r) root

/-- The function `build_morse_tree` of `src/main.cpp`. -/
def build_morse_tree : MorseNode := build_from MORSE_DEFINITIONS MorseNode.fresh

/-- The function `morse_segment_to_char` of `src/main.cpp`. The first equation is the test
`if (curr == nullptr) return '\0'` made after each move (the root itself is never null). -/
def morse_segment_to_char : MorseNode → List Char → Char
  | MorseNode.null, _ => NUL
  | MorseNode.node character _ _, [] => character
  | MorseNode.node _ d s, c :: rest =>
    if c = '.' then morse_segment_to_char d rest
    else if c = '-' then morse_segment_to_char s rest
    else NUL

/-- The conversion `int n = s.size()`: the low 32 bits of the size, read as a signed
two's-complement number. It is the identity below `2^31`. -/
def toInt (size : Nat) : Int :=
  if size % 4294967296 < 2147483648 then ((size % 4294967296 : Nat) : Int)
  else ((size % 4294967296 : Nat) : Int) - 4294967296

/-- The `for (int i = 1; i < rem_len; ++i)` loop of `try_decode_spaceless_q`: the first argument
counts the iterations still to run, the second is the loop variable `i`. -/
def q_split_loop (root : MorseNode) (remainder : List Char) : Nat → Nat → List Char
  | 0, _ => []
  | todo + 1, i =>
    let part1 := remainder.take i
    let part2 := remainder.drop i
    let c1 := morse_segment_to_char root part1
    let c2 := morse_segment_to_char root part2
    if c1 ≠ NUL ∧ c2 ≠ NUL then
      let potential_code := ['Q', c1, c2]
      if potential_code ∈ Q_CODES then potential_code
      else q_split_loop root remainder todo (i + 1)
    else q_split_loop root remainder todo (i + 1)

/-- The function `try_decode_spaceless_q` of `src/main.cpp`; the empty list is the empty string
`""`. The loop runs for `i = 1, ..., rem_len - 1`, that is `rem_len - 1` times (none when
`rem_len ≤ 1`). -/
def try_decode_spaceless_q (root : MorseNode) (buffer : List Char) : List Char :=
  if buffer.length < 6 then []
  else
    let q_sig := "--.-".toList
    if buffer.take 4 ≠ q_sig then []
    else
      let remainder := buffer.drop 4
      let rem_len := toInt remainder.length
      q_split_loop root remainder (rem_len - 1).toNat 1

/-- Why a buffer was thrown away: the `[SYSTEM]` message (length 6 or more, no Q prefix) or the
`[FAIL]` message (longer than 13 symbols without a hit). -/
inductive DiscardReason where
  | not_q
  | too_long
deriving DecidableEq, Repr

/-- What one pass of the `while (true)` loop of `main` reports: `[SUCCESS]` with the code
(`Resolved`), one of the two discard messages (`Discarded`), or that the buffer is kept for more
input (`Waiting`: the `[INFO]` message, or no message at all below 6 symbols). -/
inductive DecodeEvent where
  | Waiting
  | Resolved (code : List Char)
  | Discarded (reason : DiscardReason)
deriving DecidableEq, Repr

/-- One pass of the `while (true)` loop of `main` in `src/main.cpp`, after the `exit` test:
append the dots and dashes of `input_segment` to `current_buffer`, then branch. The result is
the report and the buffer kept for the next pass. -/
def stream_update (current_buffer input_segment : List Char) : DecodeEvent × List Char :=
  let current_buffer := current_buffer ++ input_segment.filter (fun c => c = '.' ∨ c = '-')
  if current_buffer.length ≥ 6 then
    if current_buffer.take 4 ≠ "--.-".toList then
      (DecodeEvent.Discarded DiscardReason.not_q, [])
    else
      let detected_q := try_decode_spaceless_q build_morse_tree current_buffer
      if detected_q ≠ [] then (DecodeEvent.Resolved detected_q, [])
      else if current_buffer.length > 13 then (DecodeEvent.Discarded DiscardReason.too_long, [])
      else (DecodeEvent.Waiting, current_buffer)
  else (DecodeEvent.Waiting, current_buffer)

/-- The `while (true)` loop of `main` over the successive values read into `input_segment`: it
stops at `exit` (or when the inputs given are used up) and yields the reports in order and the
buffer at that point. -/
def stream_loop (current_buffer : List Char) : List (List Char) → List DecodeEvent × List Char
  | [] => ([], current_buffer)
  | input_segment :: later =>
    if input_segment = "exit".toList then ([], current_buffer)
    else
      let r := stream_update current_buffer input_segment
      let rest := stream_loop r.2 later
      (r.1 :: rest.1, rest.2)

/-- Feeding a symbol sequence one symbol per input, from the empty buffer. -/
def feed_symbols (symbols : List Char) : List DecodeEvent × List Char :=
  stream_loop [] (symbols.map fun c => [c])

/-! ## Data and functions of `src/Decoder.cpp` -/

/-- The map `morse` of `src/Decoder.cpp`, in source order. `morse.count(s)` is
`(morse.lookup s).isSome` and `morse[s]` the value found; the keys are pairwise distinct. -/
def morse : List (List Char × Char) := [
  (".-".toList, 'A'), ("-...".toList, 'B'), ("-.-.".toList, 'C'), ("-..".toList, 'D'),
  (".".toList, 'E'), ("..-.".toList, 'F'), ("--.".toList, 'G'), ("....".toList, 'H'),
  ("..".toList, 'I'), (".---".toList, 'J'), ("-.-".toList, 'K'), (".-..".toList, 'L'),
  ("--".toList, 'M'), ("-.".toList, 'N'), ("---".toList, 'O'), (".--.".toList, 'P'),
  ("--.-".toList, 'Q'), (".-.".toList, 'R'), ("...".toList, 'S'), ("-".toList, 'T'),
  ("..-".toList, 'U'), ("...-".toList, 'V'), (".--".toList, 'W'), ("-..-".toList, 'X'),
  ("-.--".toList, 'Y'), ("--..".toList, 'Z'),
  ("-----".toList, '0'), (".----".toList, '1'), ("..---".toList, '2'), ("...--".toList, '3'),
  ("....-".toList, '4'), (".....".toList, '5'), ("-....".toList, '6'), ("--...".toList, '7'),
  ("---..".toList, '8'), ("----.".toList, '9') ]

/-- The map `Qprefix` of `src/Decoder.cpp`: the 6-symbol prefixes and their family. -/
def Qprefix : List (List Char × Char) := [
  ("--.---".toList, 'T'),
  ("--.-..".toList, 'U') ]

/-- The map `Qsuffix` of `src/Decoder.cpp`: per family, the 3-symbol suffixes. -/
def Qsuffix : List (Char × List (List Char × Char)) := [
  ('T', [ (".-.".toList, 'C'), ("..-".toList, 'X') ]),
  ('U', [ ("..-".toList, 'U'), (".--".toList, 'W') ]) ]

/-- The expression `Qsuffix[type]`: the family's table (`operator[]` gives an empty map for a
key that is absent). -/
def Qsuffix_at (type : Char) : List (List Char × Char) :=
  (Qsuffix.lookup type).getD []

/-- The inner `for (int len=1; len<=5 && i+len<=n; len++)` loop of `greedy` at position `i`:
the first length whose substring is a key of `morse`, with the character it maps to. The first
argument counts the iterations still allowed (5 at the start). -/
def greedy_scan (s : List Char) (n : Int) (i : Nat) : Nat → Nat → Option (Char × Nat)
  | 0, _ => none
  | todo + 1, len =>
    if len ≤ 5 ∧ ((i + len : Nat) : Int) ≤ n then
      let sub := (s.drop i).take len
      match morse.lookup sub with
      | some ch => some (ch, len)
      | none => greedy_scan s n i todo (len + 1)
    else none

/-- The `while (i<n)` loop of `greedy`: state `i`, `res`. Each pass either stops or advances
`i`, so `n - i` passes are enough; the first argument bounds the passes. -/
def greedy_loop (s : List Char) (n : Int) : Nat → Nat → List Char → List Char
  | 0, _, res => res
  | fuel + 1, i, res =>
    if (i : Int) < n then
      match greedy_scan s n i 5 1 with
      | some (ch, len) => greedy_loop s n fuel (i + len) (res ++ [ch])
      | none => res ++ ['?']
    else res

/-- The function `greedy` of `src/Decoder.cpp`. -/
def greedy (s : List Char) : List Char :=
  let n := toInt s.length
  greedy_loop s n n.toNat 0 []

/-- The last three lines of `decodeToken`, reached when no family branch returned. -/
def decodeToken_plain (s : List Char) : List Char :=
  if s.length ≥ 6 then ['?']
  else
    match morse.lookup s with
    | some ch => [ch]
    | none => ['?']

/-- The function `decodeToken` of `src/Decoder.cpp`. -/
def decodeToken (s : List Char) : List Char :=
  if s.length < 6 then
    match morse.lookup s with
    | some ch => [ch]
    | none => ['?']
  else
    let pref := s.take 6
    match Qprefix.lookup pref with
    | some type =>
      if type = 'T' then
        if s.length < 9 then ['?']
        else
          let suf := (s.drop 6).take 3
          match (Qsuffix_at type).lookup suf with
          | some alpha => "QT".toList ++ [alpha] ++ greedy (s.drop 9)
          | none => ['?']
      else if type = 'U' then
        if s.length < 12 then ['?']
        else
          let suf1 := (s.drop 6).take 3
          let suf2 := (s.drop 9).take 3
          match (Qsuffix_at type).lookup suf1, (Qsuffix_at type).lookup suf2 with
          | some _, some alpha => "QU".toList ++ [alpha] ++ greedy (s.drop 12)
          | _, _ => ['?']
      else decodeToken_plain s
    | none => decodeToken_plain s

/-- The increment `sp++` of an `int`: one more, and from `2^31 - 1` the wrap to `-2^31`. -/
def int_succ (x : Int) : Int :=
  if x = 2147483647 then -2147483648 else x + 1

/-- The variables `tokens`, `cur`, `sp` of `main` in `src/Decoder.cpp`. -/
structure TokenizerState where
  tokens : List (List Char)
  cur : List Char
  sp : Int
deriving DecidableEq, Repr

/-- The body of the `for (char c : line)` loop of `main` in `src/Decoder.cpp`; `sp++` is
`int_succ`. -/
def tokenize_step (st : TokenizerState) (c : Char) : TokenizerState :=
  if c = ' ' then
    let sp := int_succ st.sp
    if sp = 1 then
      { tokens := if st.cur.length ≠ 0 then st.tokens ++ [st.cur] else st.tokens,
        cur := [], sp := sp }
    else if sp = 2 then
      { tokens := st.tokens ++ [[' ']], cur := st.cur, sp := sp }
    else { tokens := st.tokens, cur := st.cur, sp := sp }
  else
    { tokens := st.tokens, cur := st.cur ++ [c], sp := if st.sp ≥ 1 then 0 else st.sp }

/-- The token list of `main` in `src/Decoder.cpp` once the line is read: the loop over the
characters and the final `if (cur.size()) tokens.push_back(cur)`. -/
def tokenize (line : List Char) : List (List Char) :=
  let st := line.foldl tokenize_step { tokens := [], cur := [], sp := 0 }
  if st.cur.length ≠ 0 then st.tokens ++ [st.cur] else st.tokens

/-- The program `main` of `src/Decoder.cpp` as a function of the line read: tokenize, then
decode each token into `ans` (the token `" "` gives one space). -/
def decodeLine (line : List Char) : List Char :=
  (tokenize line).foldl (fun ans t => if t = [' '] then ans ++ [' '] else ans ++ decodeToken t) []

/-! ## Definitions used to state the properties -/

/-- The code the table `MORSE_DEFINITIONS` gives for a character (empty when it has none). -/
def code_of (c : Char) : List Char :=
  match MORSE_DEFINITIONS.find? (fun e => e.character = c) with
  | some e => e.code
  | none => []

/-- The code the map `morse` gives for a character (empty when it has none). -/
def morse_code_of (c : Char) : List Char :=
  match morse.find? (fun p => p.2 = c) with
  | some p => p.1
  | none => []

/-- The supported characters `A`-`Z` and `0`-`9`. -/
def supported (c : Char) : Prop := c.isUpper ∨ c.isDigit

instance (c : Char) : Decidable (supported c) := by unfold supported; infer_instance

/-- A word written in code: the codes of its characters, one space between two of them. -/
def encode_word (w : List Char) : List Char :=
  List.intercalate [' '] (w.map morse_code_of)

/-- A line written in code: the words in code, two spaces between two of them. -/
def encode_line (ws : List (List Char)) : List Char :=
  List.intercalate [' ', ' '] (ws.map encode_word)

/-- The candidate code of the split index `i` of the remainder `r`. -/
def split_code (root : MorseNode) (r : List Char) (i : Nat) : List Char :=
  ['Q', morse_segment_to_char root (r.take i), morse_segment_to_char root (r.drop i)]

/-- Cutting the remainder `r` at `i` gives a registry hit: both parts look up to a character
and `Q` followed by the two characters is in `Q_CODES`. -/
def split_hit (root : MorseNode) (r : List Char) (i : Nat) : Prop :=
  morse_segment_to_char root (r.take i) ≠ NUL ∧
  morse_segment_to_char root (r.drop i) ≠ NUL ∧
  split_code root r i ∈ Q_CODES

instance (root : MorseNode) (r : List Char) (i : Nat) : Decidable (split_hit root r i) := by
  unfold split_hit; infer_instance

/-- A registry-valid split index of the remainder `r`: an index from `1` to `len(r) - 1` (both
parts non-empty) at which the cut gives a registry hit. -/
def valid_split (root : MorseNode) (r : List Char) (i : Nat) : Prop :=
  1 ≤ i ∧ i < r.length ∧ split_hit root r i

instance (root : MorseNode) (r : List Char) (i : Nat) : Decidable (valid_split root r i) := by
  unfold valid_split; infer_instance

/-- A string over the two symbols `'.'` and `'-'`. -/
def dot_dash (s : List Char) : Prop := ∀ c ∈ s, c = '.' ∨ c = '-'

instance (s : List Char) : Decidable (dot_dash s) := by unfold dot_dash; infer_instance

/-- The line with every character other than `'.'`, `'-'` and `' '` removed. -/
def sanitize (line : List Char) : List Char :=
  line.filter (fun c => c = '.' ∨ c = '-' ∨ c = ' ')

/-- The symbol-by-symbol reading of a token: `E` for each `'.'` and `T` for each `'-'` of the
leading run of dots and dashes, then a single `?` at the first other character, after which
nothing more is emitted. -/
def greedy_symbols : List Char → List Char
  | [] => []
  | c :: rest =>
    if c = '.' then 'E' :: greedy_symbols rest
    else if c = '-' then 'T' :: greedy_symbols rest
    else ['?']

/-- The condition on a buffer kept by the stream loop: at most 13 symbols, and from 6 symbols on
the Q prefix and no registry-valid split. -/
def retained_ok (b : List Char) : Prop :=
  b.length ≤ 13 ∧
  (6 ≤ b.length →
    b.take 4 = "--.-".toList ∧ ¬ ∃ i, valid_split build_morse_tree (b.drop 4) i)

/-- Two tokenizer states with the same tokens and the same `cur`, whose space counters are
equal or both at least 2. -/
def same_tokens (st st2 : TokenizerState) : Prop :=
  st.tokens = st2.tokens ∧ st.cur = st2.cur ∧ (st.sp = st2.sp ∨ (2 ≤ st.sp ∧ 2 ≤ st2.sp))

/-! ## The symbol tree -/

/-- The table has 36 entries and the registry 104. -/
theorem table_sizes : NUM_MORSE_ENTRIES = 36 ∧ Q_CODES.length = 104 := by decide

/-- C1: for every (character, code) pair of the code table, looking the code up in the tree built
by `build_morse_tree` gives back exactly that character. -/
theorem lookup_table_code (e : MorseEntry) (h : e ∈ MORSE_DEFINITIONS) :
    morse_segment_to_char build_morse_tree e.code = e.character := by
  revert e
  decide

/-- C1 at the entry for `R`. -/
theorem lookup_table_code_witness :
    (⟨'R', ".-.".toList⟩ : MorseEntry) ∈ MORSE_DEFINITIONS ∧
      morse_segment_to_char build_morse_tree ".-.".toList = 'R' :=
  ⟨by decide, lookup_table_code ⟨'R', ".-.".toList⟩ (by decide)⟩

/-- Below a null pointer every lookup gives `'\0'`. -/
theorem lookup_null (s : List Char) : morse_segment_to_char MorseNode.null s = NUL := by
  cases s <;> rfl

/-- Below a node just created every lookup gives `'\0'`. -/
theorem lookup_fresh (s : List Char) : morse_segment_to_char MorseNode.fresh s = NUL := by
  cases s with
  | nil => rfl
  | cons c rest =>
    simp only [MorseNode.fresh, morse_segment_to_char, lookup_null]
    split_ifs <;> rfl

/-- Creating a missing child does not change what is found below it. -/
theorem lookup_orFresh (t : MorseNode) (s : List Char) :
    morse_segment_to_char t.orFresh s = morse_segment_to_char t s := by
  cases t with
  | null => simp only [MorseNode.orFresh, lookup_fresh, lookup_null]
  | node c d e => rfl

theorem orFresh_ne_null (t : MorseNode) : t.orFresh ≠ MorseNode.null := by
  cases t <;> simp [MorseNode.orFresh, MorseNode.fresh]

theorem insert_code_ne_null (code : List Char) (ch : Char) (t : MorseNode)
    (ht : t ≠ MorseNode.null) : insert_code code ch t ≠ MorseNode.null := by
  induction code generalizing t with
  | nil =>
    cases t with
    | null => exact absurd rfl ht
    | node c d e => simp [insert_code]
  | cons sym rest ih =>
    cases t with
    | null => exact absurd rfl ht
    | node c d e =>
      simp only [insert_code]
      split_ifs
      · simp
      · simp
      · exact ih _ (by simp)

/-- Writing one table entry into the tree changes the lookup of its code and of nothing else. -/
theorem lookup_insert_code (code : List Char) (hcode : dot_dash code) (ch : Char)
    (t : MorseNode) (ht : t ≠ MorseNode.null) (s : List Char) :
    morse_segment_to_char (insert_code code ch t) s
      = if s = code then ch else morse_segment_to_char t s := by
  induction code generalizing t s with
  | nil =>
    cases t with
    | null => exact absurd rfl ht
    | node c d e =>
      cases s with
      | nil => simp [insert_code, morse_segment_to_char]
      | cons x xs => simp [insert_code, morse_segment_to_char]
  | cons sym rest ih =>
    have hrest : dot_dash rest := fun c hc => hcode c (List.mem_cons_of_mem _ hc)
    cases t with
    | null => exact absurd rfl ht
    | node c d e =>
      rcases hcode sym (List.mem_cons_self _ _) with hsym | hsym
      · subst hsym
        cases s with
        | nil => simp [insert_code, morse_segment_to_char]
        | cons x xs =>
          by_cases hx : x = '.'
          · subst hx
            simp [insert_code, morse_segment_to_char, ih hrest _ (orFresh_ne_null d),
              lookup_orFresh]
          · by_cases hx2 : x = '-'
            · subst hx2
              simp [insert_code, morse_segment_to_char]
            · simp [insert_code, morse_segment_to_char, hx, hx2]
      · subst hsym
        cases s with
        | nil => simp [insert_code, morse_segment_to_char]
        | cons x xs =>
          by_cases hx : x = '.'
          · subst hx
            simp [insert_code, morse_segment_to_char]
          · by_cases hx2 : x = '-'
            · subst hx2
              simp [insert_code, morse_segment_to_char, ih hrest _ (orFresh_ne_null e),
                lookup_orFresh]
            · simp [insert_code, morse_segment_to_char, hx, hx2]

/-- A string that is the code of no entry is looked up in the built tree as in the root the
build started from. -/
theorem lookup_build_from_of_not_code (table : List MorseEntry)
    (htable : ∀ e ∈ table, dot_dash e.code) (root : MorseNode) (hroot : root ≠ MorseNode.null)
    (s : List Char) (hs : ∀ e ∈ table, s ≠ e.code) :
    morse_segment_to_char (build_from table root) s = morse_segment_to_char root s := by
  induction table generalizing root with
  | nil => rfl
  | cons e rest ih =>
    have h1 := ih (fun x hx => htable x (List.mem_cons_of_mem _ hx)) _
      (insert_code_ne_null e.code e.character root hroot)
      (fun x hx => hs x (List.mem_cons_of_mem _ hx))
    have h2 := lookup_insert_code e.code (htable e (List.mem_cons_self _ _)) e.character root
      hroot s
    rw [if_neg (hs e (List.mem_cons_self _ _))] at h2
    simpa [build_from] using h1.trans h2

/-- A successful `lookup` in an association list finds a pair of the list. -/
theorem mem_of_lookup_eq_some {l : List (List Char × Char)} {k : List Char} {v : Char}
    (h : l.lookup k = some v) : (k, v) ∈ l := by
  induction l with
  | nil => simp at h
  | cons p rest ih =>
    obtain ⟨a, b⟩ := p
    by_cases hk : k = a
    · subst hk
      simp [List.lookup] at h
      simp [h]
    · have hb : (k == a) = false := by simpa using hk
      simp only [List.lookup, hb] at h
      exact List.mem_cons_of_mem _ (ih h)

theorem table_codes_dot_dash : ∀ e ∈ MORSE_DEFINITIONS, dot_dash e.code := by decide

theorem morse_lookup_table : ∀ e ∈ MORSE_DEFINITIONS,
    morse.lookup e.code = some e.character ∧ e.character ≠ NUL ∧
      morse_segment_to_char build_morse_tree e.code = e.character := by decide

theorem morse_pairs_in_table : ∀ p ∈ morse, (⟨p.2, p.1⟩ : MorseEntry) ∈ MORSE_DEFINITIONS := by
  decide

/-- The tree lookup and the exact-match map agree on every string (`'\0'` for no entry). -/
theorem lookup_eq_morse (s : List Char) :
    morse_segment_to_char build_morse_tree s = (morse.lookup s).getD NUL := by
  by_cases h : ∃ e ∈ MORSE_DEFINITIONS, s = e.code
  · obtain ⟨e, he, rfl⟩ := h
    obtain ⟨h1, _, h3⟩ := morse_lookup_table e he
    rw [h1, h3]; rfl
  · have hno : ∀ e ∈ MORSE_DEFINITIONS, s ≠ e.code := fun e he hs => h ⟨e, he, hs⟩
    have h1 := lookup_build_from_of_not_code MORSE_DEFINITIONS table_codes_dot_dash
      MorseNode.fresh (by simp [MorseNode.fresh]) s hno
    have h2 : morse.lookup s = none := by
      cases hl : morse.lookup s with
      | none => rfl
      | some c =>
        exact absurd rfl (hno _ (morse_pairs_in_table _ (mem_of_lookup_eq_some hl)))
    rw [h2]
    simpa [build_morse_tree, lookup_fresh] using h1

/-- No key of the map `morse` is mapped to `'\0'`. -/
theorem morse_lookup_ne_NUL {s : List Char} {c : Char} (h : morse.lookup s = some c) :
    c ≠ NUL :=
  (morse_lookup_table _ (morse_pairs_in_table _ (mem_of_lookup_eq_some h))).2.1

/-- C2: for every string `s`, the tree lookup returns the character `c` exactly when the map
`morse` maps `s` to `c`, and returns `'\0'` exactly when `s` is not a key of that map. -/
theorem lookup_refines_morse (s : List Char) :
    (∀ c : Char, morse.lookup s = some c ↔
      (morse_segment_to_char build_morse_tree s = c ∧ c ≠ NUL)) ∧
    (morse.lookup s = none ↔ morse_segment_to_char build_morse_tree s = NUL) := by
  rw [lookup_eq_morse]
  cases h : morse.lookup s with
  | none => simp
  | some d =>
    have hd := morse_lookup_ne_NUL h
    constructor
    · intro c
      constructor
      · intro hc
        have : d = c := by simpa using hc
        subst this
        exact ⟨rfl, hd⟩
      · rintro ⟨hc, _⟩
        simpa using hc
    · simp [hd]

/-! ## The tokenizer and `decodeLine` -/

theorem intercalate_cons_cons {α : Type} (sep a b : List α) (l : List (List α)) :
    List.intercalate sep (a :: b :: l) = a ++ sep ++ List.intercalate sep (b :: l) := by
  simp [List.intercalate, List.intersperse]

theorem intercalate_singleton {α : Type} (sep a : List α) :
    List.intercalate sep [a] = a := by
  simp [List.intercalate, List.intersperse]

/-- A character that is not a space is appended to `cur`; it clears a space counter that is
not negative. -/
theorem tokenize_step_symbol (t : List (List Char)) (cur : List Char) (sp : Int) (c : Char)
    (hc : c ≠ ' ') (hsp : 0 ≤ sp) :
    tokenize_step ⟨t, cur, sp⟩ c = ⟨t, cur ++ [c], 0⟩ := by
  simp only [tokenize_step, if_neg hc]
  by_cases h : sp ≥ 1
  · simp [h]
  · have : sp = 0 := by omega
    simp [this]

/-- A non-empty run without a space is appended to `cur`. -/
theorem tokenize_run_symbols (xs : List Char) (hxs : ∀ c ∈ xs, c ≠ ' ') (hne : xs ≠ [])
    (t : List (List Char)) (cur : List Char) (sp : Int) (hsp : 0 ≤ sp) :
    xs.foldl tokenize_step ⟨t, cur, sp⟩ = ⟨t, cur ++ xs, 0⟩ := by
  induction xs generalizing cur sp with
  | nil => exact absurd rfl hne
  | cons x rest ih =>
    rw [List.foldl_cons, tokenize_step_symbol t cur sp x (hxs x (List.mem_cons_self _ _)) hsp]
    cases rest with
    | nil => rfl
    | cons y more =>
      rw [ih (fun c hc => hxs c (List.mem_cons_of_mem _ hc)) (by simp) _ _ (le_refl 0)]
      simp

/-- The codes of one word, a single space between them, each become a token; the last one is
still in `cur` at the end. -/
theorem tokenize_run_word (cs : List (List Char)) (hne : cs ≠ [])
    (hcs : ∀ x ∈ cs, x ≠ [] ∧ ∀ c ∈ x, c ≠ ' ') (t : List (List Char)) (sp : Int)
    (hsp : 0 ≤ sp) :
    ∃ t1 cur, cur ≠ [] ∧ t1 ++ [cur] = t ++ cs ∧
      (List.intercalate [' '] cs).foldl tokenize_step ⟨t, [], sp⟩ = ⟨t1, cur, 0⟩ := by
  induction cs generalizing t sp with
  | nil => exact absurd rfl hne
  | cons x rest ih =>
    obtain ⟨hx1, hx2⟩ := hcs x (List.mem_cons_self _ _)
    cases rest with
    | nil =>
      refine ⟨t, x, hx1, rfl, ?_⟩
      rw [intercalate_singleton, tokenize_run_symbols x hx2 hx1 _ _ _ hsp]
      simp
    | cons y more =>
      obtain ⟨t1, cur, h1, h2, h3⟩ := ih (by simp)
        (fun z hz => hcs z (List.mem_cons_of_mem _ hz)) (t ++ [x]) 1 (by omega)
      refine ⟨t1, cur, h1, by simpa using h2, ?_⟩
      rw [intercalate_cons_cons, List.foldl_append, List.foldl_append,
        tokenize_run_symbols x hx2 hx1 _ _ _ hsp]
      have hstep : List.foldl tokenize_step ⟨t, [] ++ x, 0⟩ [' '] = ⟨t ++ [x], [], 1⟩ := by
        simp [tokenize_step, int_succ, hx1]
      rw [hstep, h3]

/-- The words of a line, two spaces between them: the tokens are the codes of each word, with
one `" "` token between two words. -/
theorem tokenize_run_line (wss : List (List (List Char))) (hne : wss ≠ [])
    (hws : ∀ cs ∈ wss, cs ≠ [] ∧ ∀ x ∈ cs, x ≠ [] ∧ ∀ c ∈ x, c ≠ ' ')
    (t : List (List Char)) (sp : Int) (hsp : 0 ≤ sp) :
    ∃ t1 cur, cur ≠ [] ∧ t1 ++ [cur] = t ++ List.intercalate [[' ']] wss ∧
      (List.intercalate [' ', ' '] (wss.map (List.intercalate [' ']))).foldl tokenize_step
        ⟨t, [], sp⟩ = ⟨t1, cur, 0⟩ := by
  induction wss generalizing t sp with
  | nil => exact absurd rfl hne
  | cons cs rest ih =>
    obtain ⟨hc1, hc2⟩ := hws cs (List.mem_cons_self _ _)
    obtain ⟨t1, cur, h1, h2, h3⟩ := tokenize_run_word cs hc1 hc2 t sp hsp
    cases rest with
    | nil =>
      refine ⟨t1, cur, h1, ?_, ?_⟩
      · rw [intercalate_singleton]; exact h2
      · rw [List.map_singleton, intercalate_singleton]; exact h3
    | cons ds more =>
      obtain ⟨t2, cur2, k1, k2, k3⟩ := ih (by simp)
        (fun z hz => hws z (List.mem_cons_of_mem _ hz)) (t1 ++ [cur] ++ [[' ']]) 2 (by omega)
      refine ⟨t2, cur2, k1, ?_, ?_⟩
      · rw [k2, h2, intercalate_cons_cons]
        simp
      · rw [List.map_cons, List.map_cons, intercalate_cons_cons, List.foldl_append,
          List.foldl_append, h3]
        have hstep : List.foldl tokenize_step ⟨t1, cur, 0⟩ [' ', ' ']
            = ⟨t1 ++ [cur] ++ [[' ']], [], 2⟩ := by
          simp [tokenize_step, int_succ, h1]
        rw [hstep]
        exact k3

/-- The answer loop of `main` appends the decoding of each token in order. -/
theorem answer_loop_eq (toks : List (List Char)) (init : List Char) :
    toks.foldl (fun ans t => if t = [' '] then ans ++ [' '] else ans ++ decodeToken t) init
      = init ++ (toks.map fun t => if t = [' '] then [' '] else decodeToken t).flatten := by
  induction toks generalizing init with
  | nil => simp
  | cons t rest ih =>
    rw [List.foldl_cons, List.map_cons, List.flatten_cons]
    by_cases h : t = [' ']
    · simp only [if_pos h]
      rw [ih]; simp
    · simp only [if_neg h]
      rw [ih]; simp

/-- The characters `A`-`Z` and `0`-`9`, listed. -/
theorem supported_cases (c : Char) (h : supported c) :
    c ∈ "ABCDEFGHIJKLMNOPQRSTUVWXYZ0123456789".toList := by
  have hc : c = Char.ofNat c.toNat := (Char.ofNat_toNat c).symm
  rcases h with h | h
  · simp only [Char.isUpper, Bool.and_eq_true, decide_eq_true_eq, UInt32.le_def] at h
    obtain ⟨h1, h2⟩ := h
    have h1' : 65 ≤ c.toNat := h1
    have h2' : c.toNat ≤ 90 := h2
    generalize c.toNat = n at hc h1' h2'
    subst hc
    interval_cases n <;> decide
  · simp only [Char.isDigit, Bool.and_eq_true, decide_eq_true_eq, UInt32.le_def] at h
    obtain ⟨h1, h2⟩ := h
    have h1' : 48 ≤ c.toNat := h1
    have h2' : c.toNat ≤ 57 := h2
    generalize c.toNat = n at hc h1' h2'
    subst hc
    interval_cases n <;> decide

/-- For each supported character: its code is non-empty, has no space, and decodes as a token
to the character. -/
theorem code_token_facts : ∀ c ∈ "ABCDEFGHIJKLMNOPQRSTUVWXYZ0123456789".toList,
    morse_code_of c ≠ [] ∧ (∀ x ∈ morse_code_of c, x ≠ ' ') ∧ morse_code_of c ≠ [' '] ∧
      decodeToken (morse_code_of c) = [c] := by decide

/-- Decoding the code tokens of a word gives the word. -/
theorem decode_word_tokens (w : List Char) (hw : ∀ c ∈ w, supported c) :
    ((w.map morse_code_of).map fun t => if t = [' '] then [' '] else decodeToken t).flatten
      = w := by
  induction w with
  | nil => rfl
  | cons c rest ih =>
    obtain ⟨_, _, h3, h4⟩ := code_token_facts c (supported_cases c (hw c (List.mem_cons_self _ _)))
    rw [List.map_cons, List.map_cons, List.flatten_cons, if_neg h3, h4,
      ih (fun x hx => hw x (List.mem_cons_of_mem _ hx))]
    rfl

/-- Decoding the tokens of a line, with a `" "` token between the words, gives the words
joined by one space. -/
theorem decode_line_tokens (ws : List (List Char)) (hw : ∀ w ∈ ws, ∀ c ∈ w, supported c) :
    ((List.intercalate [[' ']] (ws.map fun w => w.map morse_code_of)).map
        fun t => if t = [' '] then [' '] else decodeToken t).flatten
      = List.intercalate [' '] ws := by
  induction ws with
  | nil => rfl
  | cons w rest ih =>
    have hw1 := decode_word_tokens w (hw w (List.mem_cons_self _ _))
    cases rest with
    | nil =>
      rw [List.map_singleton, intercalate_singleton, intercalate_singleton]
      exact hw1
    | cons v more =>
      have ih1 := ih (fun x hx => hw x (List.mem_cons_of_mem _ hx))
      rw [List.map_cons, List.map_cons, intercalate_cons_cons, List.map_append, List.map_append,
        List.flatten_append, List.flatten_append, hw1, intercalate_cons_cons]
      rw [List.map_cons] at ih1
      rw [ih1]
      simp

/-- C3: for every non-empty sequence of non-empty words over `A`-`Z` and `0`-`9`, the line that
writes each character as its code, with one space between the codes of a word and two spaces
between words, is decoded by `decodeLine` to the words joined by one space. -/
theorem decodeLine_encode_line (ws : List (List Char)) (hne : ws ≠ [])
    (hws : ∀ w ∈ ws, w ≠ [] ∧ ∀ c ∈ w, supported c) :
    decodeLine (encode_line ws) = List.intercalate [' '] ws := by
  have hcodes : ∀ cs ∈ ws.map (fun w => w.map morse_code_of),
      cs ≠ [] ∧ ∀ x ∈ cs, x ≠ [] ∧ ∀ c ∈ x, c ≠ ' ' := by
    intro cs hcs
    obtain ⟨w, hw, rfl⟩ := List.mem_map.1 hcs
    obtain ⟨hw1, hw2⟩ := hws w hw
    refine ⟨by simpa using hw1, ?_⟩
    intro x hx
    obtain ⟨c, hc, rfl⟩ := List.mem_map.1 hx
    obtain ⟨h1, h2, _, _⟩ := code_token_facts c (supported_cases c (hw2 c hc))
    exact ⟨h1, h2⟩
  obtain ⟨t1, cur, h1, h2, h3⟩ := tokenize_run_line (ws.map fun w => w.map morse_code_of)
    (by simpa using hne) hcodes [] 0 (le_refl 0)
  have hline : encode_line ws = List.intercalate [' ', ' ']
      ((ws.map fun w => w.map morse_code_of).map (List.intercalate [' '])) := by
    simp only [encode_line, List.map_map, Function.comp_def]
    rfl
  have htok : tokenize (encode_line ws)
      = List.intercalate [[' ']] (ws.map fun w => w.map morse_code_of) := by
    unfold tokenize
    rw [hline, h3]
    have hlen : cur.length ≠ 0 := by
      intro h0
      exact h1 (List.length_eq_zero.1 h0)
    simp only [hlen, ne_eq, not_false_eq_true, if_true]
    simpa using h2
  unfold decodeLine
  rw [htok, answer_loop_eq, List.nil_append]
  exact decode_line_tokens ws (fun w hw => (hws w hw).2)

/-- C3 on the three lines of the specification: `.-`, `.- -...` and `.-  -...`. -/
theorem decodeLine_encode_line_witness :
    decodeLine ".-".toList = "A".toList ∧ decodeLine ".- -...".toList = "AB".toList ∧
      decodeLine ".-  -...".toList = "A B".toList :=
  ⟨decodeLine_encode_line ["A".toList] (by decide) (by decide),
   decodeLine_encode_line ["AB".toList] (by decide) (by decide),
   decodeLine_encode_line ["A".toList, "B".toList] (by decide) (by decide)⟩

/-! ## The spaceless split search -/

set_option maxRecDepth 100000 in
/-- Every registry entry is `Q` followed by two characters, and the split search applied to the
three table codes written without a separator finds that entry. -/
theorem registry_roundtrip : ∀ q ∈ Q_CODES,
    q = ['Q', q.getD 1 NUL, q.getD 2 NUL] ∧
    try_decode_spaceless_q build_morse_tree
      (code_of 'Q' ++ code_of (q.getD 1 NUL) ++ code_of (q.getD 2 NUL)) = q := by
  decide

/-- C4: for every code `Q c1 c2` of the registry `Q_CODES`, `try_decode_spaceless_q` applied to
the codes of `Q`, `c1`, `c2` written one after the other without a separator returns exactly
`Q c1 c2`. -/
theorem spaceless_registry_roundtrip (c1 c2 : Char) (h : ['Q', c1, c2] ∈ Q_CODES) :
    try_decode_spaceless_q build_morse_tree (code_of 'Q' ++ code_of c1 ++ code_of c2)
      = ['Q', c1, c2] :=
  (registry_roundtrip ['Q', c1, c2] h).2

/-- C4 at `QRA`, whose encoding `--.-.-..-` also splits as `Q`, `A`, `U` and `Q`, `L`, `T`. -/
theorem spaceless_registry_roundtrip_witness :
    ['Q', 'R', 'A'] ∈ Q_CODES ∧
      try_decode_spaceless_q build_morse_tree "--.-.-..-".toList = ['Q', 'R', 'A'] :=
  ⟨by decide, spaceless_registry_roundtrip 'R' 'A' (by decide)⟩

/-- The conversion to `int` changes nothing below `2^31`. -/
theorem toInt_of_lt (n : Nat) (h : n < 2147483648) : toInt n = (n : Int) := by
  have h1 : n % 4294967296 = n := Nat.mod_eq_of_lt (by omega)
  simp [toInt, h1, h]

/-- The value of the conversion to `int` is never above the size converted. -/
theorem toInt_le (n : Nat) : toInt n ≤ (n : Int) := by
  have h1 : n % 4294967296 ≤ n := Nat.mod_le _ _
  unfold toInt
  split_ifs <;> omega

/-- A pass of the split loop at a hit returns the candidate code. -/
theorem q_split_loop_hit (root : MorseNode) (r : List Char) (todo i : Nat)
    (h : split_hit root r i) : q_split_loop root r (todo + 1) i = split_code root r i := by
  obtain ⟨h1, h2, h3⟩ := h
  simp only [q_split_loop]
  rw [if_pos ⟨h1, h2⟩]
  exact if_pos h3

/-- A pass of the split loop at an index that is no hit goes on to the next index. -/
theorem q_split_loop_miss (root : MorseNode) (r : List Char) (todo i : Nat)
    (h : ¬ split_hit root r i) :
    q_split_loop root r (todo + 1) i = q_split_loop root r todo (i + 1) := by
  simp only [q_split_loop]
  by_cases h12 : morse_segment_to_char root (r.take i) ≠ NUL ∧
      morse_segment_to_char root (r.drop i) ≠ NUL
  · rw [if_pos h12]
    have h3 : ¬ ['Q', morse_segment_to_char root (r.take i),
        morse_segment_to_char root (r.drop i)] ∈ Q_CODES := fun h3 => h ⟨h12.1, h12.2, h3⟩
    rw [if_neg h3]
  · rw [if_neg h12]

/-- The split loop returns the candidate code of the first hit among the indices it visits. -/
theorem q_split_loop_first (root : MorseNode) (r : List Char) (todo i j : Nat)
    (hij : i ≤ j) (hj : j < i + todo) (hit : split_hit root r j)
    (hfirst : ∀ k, i ≤ k → k < j → ¬ split_hit root r k) :
    q_split_loop root r todo i = split_code root r j := by
  induction todo generalizing i with
  | zero => omega
  | succ todo ih =>
    by_cases h : i = j
    · subst h
      exact q_split_loop_hit root r todo i hit
    · rw [q_split_loop_miss root r todo i (hfirst i (le_refl _) (by omega))]
      exact ih (i + 1) (by omega) (by omega) (fun k hk1 hk2 => hfirst k (by omega) hk2)

/-- The split loop returns the empty string exactly when no index it visits is a hit. -/
theorem q_split_loop_eq_nil (root : MorseNode) (r : List Char) (todo i : Nat) :
    q_split_loop root r todo i = [] ↔ ∀ j, i ≤ j → j < i + todo → ¬ split_hit root r j := by
  induction todo generalizing i with
  | zero =>
    constructor
    · intro _ j h1 h2
      omega
    · intro _
      rfl
  | succ todo ih =>
    by_cases h : split_hit root r i
    · rw [q_split_loop_hit root r todo i h]
      constructor
      · intro hnil
        simp [split_code] at hnil
      · intro hall
        exact absurd h (hall i (le_refl _) (by omega))
    · rw [q_split_loop_miss root r todo i h, ih (i + 1)]
      constructor
      · intro hall j h1 h2
        by_cases hji : j = i
        · subst hji
          exact h
        · exact hall j (by omega) (by omega)
      · intro hall j h1 h2
        exact hall j (by omega) (by omega)

theorem morse_key_lengths : ∀ p ∈ morse, 1 ≤ p.1.length ∧ p.1.length ≤ 5 ∧ dot_dash p.1 := by
  decide

/-- A string that looks up to a character in the tree has 1 to 5 symbols, all dots and dashes. -/
theorem lookup_ne_NUL_length {s : List Char}
    (h : morse_segment_to_char build_morse_tree s ≠ NUL) :
    1 ≤ s.length ∧ s.length ≤ 5 ∧ dot_dash s := by
  rw [lookup_eq_morse] at h
  cases hl : morse.lookup s with
  | none => rw [hl] at h; exact absurd rfl h
  | some c => exact morse_key_lengths _ (mem_of_lookup_eq_some hl)

/-- A remainder that has a hit at some cut has at most 10 symbols, and the cut is inside. -/
theorem split_hit_bounds {r : List Char} {i : Nat} (h : split_hit build_morse_tree r i) :
    1 ≤ i ∧ i < r.length ∧ r.length ≤ 10 := by
  obtain ⟨h1, h2, _⟩ := h
  have a := lookup_ne_NUL_length h1
  have b := lookup_ne_NUL_length h2
  simp only [List.length_take, List.length_drop] at a b
  omega

/-- The number of passes of the split loop: `len(r) - 1` for a remainder of at most 10 symbols,
and never more than that. -/
theorem split_passes (n : Nat) :
    (toInt n - 1).toNat ≤ n - 1 ∧ (n ≤ 10 → (toInt n - 1).toNat = n - 1) := by
  constructor
  · have := toInt_le n
    omega
  · intro h
    rw [toInt_of_lt n (by omega)]
    omega

/-- On a buffer of 6 or more symbols that begins with the Q prefix, the function is the split
loop over the remainder. -/
theorem try_decode_spaceless_q_loop (root : MorseNode) (buffer : List Char)
    (hlen : 6 ≤ buffer.length) (hq : buffer.take 4 = "--.-".toList) :
    try_decode_spaceless_q root buffer
      = q_split_loop root (buffer.drop 4) (toInt (buffer.drop 4).length - 1).toNat 1 := by
  unfold try_decode_spaceless_q
  rw [if_neg (by omega)]
  simp only [hq, ne_eq, not_true_eq_false, if_false]

/-- On a buffer shorter than 6 symbols or without the Q prefix the function returns the empty
string. -/
theorem try_decode_spaceless_q_reject (root : MorseNode) (buffer : List Char)
    (h : buffer.length < 6 ∨ buffer.take 4 ≠ "--.-".toList) :
    try_decode_spaceless_q root buffer = [] := by
  unfold try_decode_spaceless_q
  by_cases h6 : buffer.length < 6
  · rw [if_pos h6]
  · rw [if_neg h6]
    exact if_pos (h.resolve_left h6)

/-- The function returns the empty string exactly when the remainder has no registry-valid
split index. -/
theorem try_decode_spaceless_q_eq_nil (buffer : List Char)
    (hlen : 6 ≤ buffer.length) (hq : buffer.take 4 = "--.-".toList) :
    try_decode_spaceless_q build_morse_tree buffer = [] ↔
      ∀ i, ¬ valid_split build_morse_tree (buffer.drop 4) i := by
  rw [try_decode_spaceless_q_loop _ buffer hlen hq, q_split_loop_eq_nil]
  obtain ⟨hp1, hp2⟩ := split_passes (buffer.drop 4).length
  constructor
  · rintro hall i ⟨h1, h2, h3⟩
    have hb := split_hit_bounds h3
    exact hall i h1 (by rw [hp2 hb.2.2]; omega) h3
  · intro hall j h1 h2 h3
    exact hall j ⟨h1, by omega, h3⟩

/-- The function returns the candidate code of the smallest registry-valid split index. -/
theorem try_decode_spaceless_q_first (buffer : List Char)
    (hlen : 6 ≤ buffer.length) (hq : buffer.take 4 = "--.-".toList) (i : Nat)
    (hi : valid_split build_morse_tree (buffer.drop 4) i)
    (hfirst : ∀ j, j < i → ¬ valid_split build_morse_tree (buffer.drop 4) j) :
    try_decode_spaceless_q build_morse_tree buffer
      = split_code build_morse_tree (buffer.drop 4) i := by
  rw [try_decode_spaceless_q_loop _ buffer hlen hq]
  obtain ⟨h1, h2, h3⟩ := hi
  have hb := split_hit_bounds h3
  obtain ⟨_, hp2⟩ := split_passes (buffer.drop 4).length
  refine q_split_loop_first _ _ _ 1 i h1 (by rw [hp2 hb.2.2]; omega) h3 ?_
  intro k hk1 hk2 hk3
  exact hfirst k hk2 ⟨hk1, by omega, hk3⟩

/-- C5: on a buffer of 6 or more symbols that begins with `--.-`, with `r` the buffer without
its first 4 symbols, `try_decode_spaceless_q` returns `Q c1 c2` for the smallest split index `i`
in `1..len(r)-1` such that `r[0:i]` looks up to `c1`, `r[i:]` looks up to `c2` and `Q c1 c2` is
in `Q_CODES`, and it returns the empty string exactly when there is no such index; on a buffer
shorter than 6 or not beginning with `--.-` it returns the empty string. -/
theorem try_decode_spaceless_q_spec (buffer : List Char) :
    ((buffer.length < 6 ∨ buffer.take 4 ≠ "--.-".toList) →
      try_decode_spaceless_q build_morse_tree buffer = []) ∧
    (6 ≤ buffer.length → buffer.take 4 = "--.-".toList →
      (∀ i, valid_split build_morse_tree (buffer.drop 4) i →
        (∀ j, j < i → ¬ valid_split build_morse_tree (buffer.drop 4) j) →
        try_decode_spaceless_q build_morse_tree buffer
          = ['Q', morse_segment_to_char build_morse_tree ((buffer.drop 4).take i),
                  morse_segment_to_char build_morse_tree ((buffer.drop 4).drop i)]) ∧
      (try_decode_spaceless_q build_morse_tree buffer = [] ↔
        ¬ ∃ i, valid_split build_morse_tree (buffer.drop 4) i)) := by
  refine ⟨?_, fun hlen hq => ⟨fun i hi hfirst => ?_, ?_⟩⟩
  · exact try_decode_spaceless_q_reject _ buffer
  · exact try_decode_spaceless_q_first buffer hlen hq i hi hfirst
  · rw [try_decode_spaceless_q_eq_nil buffer hlen hq]
    simp

/-- C5 at `--.-.-.-` (split index 3 gives `QRT`; the cuts at 1 and 2 decode to `E`, `K` and
`A`, `A`, no registry code), at the short buffer `--.-.` and at `......`. -/
theorem try_decode_spaceless_q_spec_witness :
    try_decode_spaceless_q build_morse_tree "--.-.-.-".toList = ['Q', 'R', 'T'] ∧
    try_decode_spaceless_q build_morse_tree "--.-.".toList = [] ∧
    try_decode_spaceless_q build_morse_tree "......".toList = [] :=
  ⟨((try_decode_spaceless_q_spec "--.-.-.-".toList).2 (by decide) (by decide)).1 3
      (by decide) (by decide),
   (try_decode_spaceless_q_spec "--.-.".toList).1 (Or.inl (by decide)),
   (try_decode_spaceless_q_spec "......".toList).1 (Or.inr (by decide))⟩

/-! ## The stream buffer -/

/-- The buffer is kept, and `Waiting` reported, below 6 symbols and on a Q-prefixed buffer of at
most 13 symbols without a hit. -/
theorem stream_update_waiting (current_buffer input_segment b : List Char)
    (hb : b = current_buffer ++ input_segment.filter (fun c => c = '.' ∨ c = '-'))
    (h : b.length < 6 ∨ (b.take 4 = "--.-".toList ∧
      try_decode_spaceless_q build_morse_tree b = [] ∧ b.length ≤ 13)) :
    stream_update current_buffer input_segment = (DecodeEvent.Waiting, b) := by
  subst hb
  rcases h with h | ⟨h1, h2, h3⟩
  · simp only [stream_update, ge_iff_le]
    rw [if_neg (by omega)]
  · simp only [stream_update, ge_iff_le, gt_iff_lt]
    by_cases h6 : 6 ≤ (current_buffer
        ++ input_segment.filter (fun c => c = '.' ∨ c = '-')).length
    · rw [if_pos h6, if_neg (fun h => h h1), if_neg (fun h => h h2), if_neg (by omega)]
    · rw [if_neg h6]

/-- A hit on a buffer of 6 or more symbols is reported as `Resolved` and empties the buffer. -/
theorem stream_update_resolved (current_buffer input_segment b : List Char)
    (hb : b = current_buffer ++ input_segment.filter (fun c => c = '.' ∨ c = '-'))
    (hlen : 6 ≤ b.length) (hq : b.take 4 = "--.-".toList)
    (hres : try_decode_spaceless_q build_morse_tree b ≠ []) :
    stream_update current_buffer input_segment
      = (DecodeEvent.Resolved (try_decode_spaceless_q build_morse_tree b), []) := by
  subst hb
  simp only [stream_update, ge_iff_le, gt_iff_lt]
  rw [if_pos hlen, if_neg (fun h => h hq), if_pos hres]

/-- A buffer of 6 or more symbols without the Q prefix is discarded at once. -/
theorem stream_update_not_q (current_buffer input_segment b : List Char)
    (hb : b = current_buffer ++ input_segment.filter (fun c => c = '.' ∨ c = '-'))
    (hlen : 6 ≤ b.length) (hq : b.take 4 ≠ "--.-".toList) :
    stream_update current_buffer input_segment
      = (DecodeEvent.Discarded DiscardReason.not_q, []) := by
  subst hb
  unfold stream_update
  simp only [ge_iff_le]
  rw [if_pos hlen, if_pos hq]

/-- A Q-prefixed buffer of more than 13 symbols without a hit is discarded. -/
theorem stream_update_too_long (current_buffer input_segment b : List Char)
    (hb : b = current_buffer ++ input_segment.filter (fun c => c = '.' ∨ c = '-'))
    (hlen : 13 < b.length) (hq : b.take 4 = "--.-".toList)
    (hres : try_decode_spaceless_q build_morse_tree b = []) :
    stream_update current_buffer input_segment
      = (DecodeEvent.Discarded DiscardReason.too_long, []) := by
  subst hb
  have h6 : 6 ≤ (current_buffer
      ++ input_segment.filter (fun c => c = '.' ∨ c = '-')).length := by omega
  simp only [stream_update, ge_iff_le, gt_iff_lt]
  rw [if_pos h6, if_neg (fun h => h hq), if_neg (fun h => h hres), if_pos hlen]

/-- A dot or a dash passes the filter of the update. -/
theorem filter_symbol (c : Char) (hc : c = '.' ∨ c = '-') :
    [c].filter (fun x => x = '.' ∨ x = '-') = [c] := by
  rcases hc with rfl | rfl <;> rfl

/-- One more symbol fed: the reports so far, then the report of one update on the buffer
reached. -/
theorem stream_loop_snoc (s : List Char) (c : Char) (buf : List Char) :
    stream_loop buf ((s ++ [c]).map fun x => [x])
      = ((stream_loop buf (s.map fun x => [x])).1
            ++ [(stream_update (stream_loop buf (s.map fun x => [x])).2 [c]).1],
         (stream_update (stream_loop buf (s.map fun x => [x])).2 [c]).2) := by
  induction s generalizing buf with
  | nil =>
    have hne : [c] ≠ "exit".toList := by
      intro h
      have := congrArg List.length h
      simp at this
    simp [stream_loop, hne]
  | cons x rest ih =>
    have hne : [x] ≠ "exit".toList := by
      intro h
      have := congrArg List.length h
      simp at this
    rw [List.cons_append, List.map_cons, List.map_cons]
    simp only [stream_loop, if_neg hne]
    rw [ih]
    rfl

/-- The same for `feed_symbols`. -/
theorem feed_symbols_snoc (s : List Char) (c : Char) :
    feed_symbols (s ++ [c])
      = ((feed_symbols s).1 ++ [(stream_update (feed_symbols s).2 [c]).1],
         (stream_update (feed_symbols s).2 [c]).2) :=
  stream_loop_snoc s c []

theorem take_succ_snoc (s : List Char) (k : Nat) (hk : k < s.length) :
    s.take (k + 1) = s.take k ++ [s.get ⟨k, hk⟩] := by
  rw [List.take_succ]
  simp [List.getElem?_eq_getElem hk]

/-- As long as every prefix of 6 or more symbols is Q-prefixed, has no hit and has at most 13
symbols, every update reports `Waiting` and the buffer is the prefix fed. -/
theorem feed_symbols_waiting (s : List Char) (hs : dot_dash s) (k : Nat) (hk : k ≤ s.length)
    (hwait : ∀ m, 6 ≤ m → m ≤ k → (s.take m).take 4 = "--.-".toList ∧
      try_decode_spaceless_q build_morse_tree (s.take m) = [] ∧ m ≤ 13) :
    feed_symbols (s.take k) = (List.replicate k DecodeEvent.Waiting, s.take k) := by
  induction k with
  | zero => rfl
  | succ k ih =>
    have hk1 : k < s.length := by omega
    have ih1 := ih (by omega) (fun m h1 h2 => hwait m h1 (by omega))
    have hc : s.get ⟨k, hk1⟩ = '.' ∨ s.get ⟨k, hk1⟩ = '-' := hs _ (List.get_mem _ _ _)
    have hfilter := filter_symbol _ hc
    have hupd : stream_update (s.take k) [s.get ⟨k, hk1⟩]
        = (DecodeEvent.Waiting, s.take (k + 1)) := by
      apply stream_update_waiting
      · rw [hfilter, take_succ_snoc s k hk1]
      · by_cases h6 : k + 1 < 6
        · left
          simp only [List.length_take]
          omega
        · right
          exact hwait (k + 1) (by omega) (le_refl _) |>.imp_right
            (fun h => ⟨h.1, by simp only [List.length_take]; omega⟩)
    rw [take_succ_snoc s k hk1, feed_symbols_snoc, ih1, ← take_succ_snoc s k hk1]
    simp only [hupd]
    rw [List.replicate_succ']

/-- A buffer on which the split search finds a code begins with the Q prefix and has 6 to 14
symbols. -/
theorem try_decode_spaceless_q_ne_nil_bounds {buffer : List Char}
    (h : try_decode_spaceless_q build_morse_tree buffer ≠ []) :
    buffer.take 4 = "--.-".toList ∧ 6 ≤ buffer.length ∧ buffer.length ≤ 14 := by
  have hq : buffer.take 4 = "--.-".toList := by
    by_contra hq
    exact h (try_decode_spaceless_q_reject _ buffer (Or.inr hq))
  have hlen : 6 ≤ buffer.length := by
    by_contra hlen
    exact h (try_decode_spaceless_q_reject _ buffer (Or.inl (by omega)))
  refine ⟨hq, hlen, ?_⟩
  have hex : ∃ i, valid_split build_morse_tree (buffer.drop 4) i := by
    by_contra hno
    exact h ((try_decode_spaceless_q_eq_nil buffer hlen hq).2 (fun i hi => hno ⟨i, hi⟩))
  obtain ⟨i, _, _, hi⟩ := hex
  have hb := split_hit_bounds hi
  simp only [List.length_drop] at hb
  omega

/-- C6: feeding the symbols of a dot/dash sequence `s` one at a time from the empty buffer, if
`n ≥ 6` is the smallest prefix length at which `try_decode_spaceless_q` finds a registry code,
then each of the first `n - 1` updates reports `Waiting` and keeps the buffer, and the `n`-th
reports `Resolved` with exactly that code and empties the buffer. -/
theorem feed_symbols_resolves (s : List Char) (hs : dot_dash s) (n : Nat) (hn6 : 6 ≤ n)
    (hn : n ≤ s.length)
    (hres : try_decode_spaceless_q build_morse_tree (s.take n) ≠ [])
    (hmin : ∀ m, 6 ≤ m → m < n → try_decode_spaceless_q build_morse_tree (s.take m) = []) :
    (∀ k, k < n → feed_symbols (s.take k) = (List.replicate k DecodeEvent.Waiting, s.take k)) ∧
    feed_symbols (s.take n)
      = (List.replicate (n - 1) DecodeEvent.Waiting
          ++ [DecodeEvent.Resolved (try_decode_spaceless_q build_morse_tree (s.take n))], []) := by
  obtain ⟨hq, _, h14⟩ := try_decode_spaceless_q_ne_nil_bounds hres
  have hlen_n : (s.take n).length = n := by simp [List.length_take, hn]
  rw [hlen_n] at h14
  have hq4 : s.take 4 = "--.-".toList := by
    rw [List.take_take] at hq
    rwa [Nat.min_eq_left (by omega)] at hq
  have hwait : ∀ k, k < n → feed_symbols (s.take k)
      = (List.replicate k DecodeEvent.Waiting, s.take k) := by
    intro k hk
    apply feed_symbols_waiting s hs k (by omega)
    intro m h1 h2
    refine ⟨?_, hmin m h1 (by omega), by omega⟩
    rw [List.take_take, Nat.min_eq_left (by omega)]
    exact hq4
  refine ⟨hwait, ?_⟩
  obtain ⟨p, rfl⟩ : ∃ p, n = p + 1 := ⟨n - 1, by omega⟩
  have hp : p < s.length := by omega
  have hc : s.get ⟨p, hp⟩ = '.' ∨ s.get ⟨p, hp⟩ = '-' := hs _ (List.get_mem _ _ _)
  have hupd := stream_update_resolved (s.take p) [s.get ⟨p, hp⟩] (s.take (p + 1))
    (by rw [filter_symbol _ hc, take_succ_snoc s p hp]) (by rw [hlen_n]; exact hn6) hq hres
  rw [take_succ_snoc s p hp, feed_symbols_snoc, hwait p (by omega), ← take_succ_snoc s p hp]
  simp only [hupd, Nat.add_sub_cancel]

/-- C6 on `--.-.-.-` (`Q`, `R`, `T`): `Resolved` with `QRT` on the 8th symbol, `Waiting` on the
seven before. -/
theorem feed_symbols_resolves_witness :
    feed_symbols "--.-.-.-".toList
      = (List.replicate 7 DecodeEvent.Waiting ++ [DecodeEvent.Resolved ['Q', 'R', 'T']], []) :=
  (feed_symbols_resolves "--.-.-.-".toList (by decide) 8 (by decide) (by decide) (by decide)
    (by decide)).2

/-- C7: an update after which the buffer has 6 or more symbols and does not begin with `--.-`
reports `Discarded` and empties the buffer; and feeding one symbol at a time from the empty
buffer, a 6-symbol sequence that does not begin with `--.-` gives `Waiting` on the updates 1 to
5 and `Discarded` on the 6th. -/
theorem non_q_discarded :
    (∀ current_buffer input_segment : List Char,
      6 ≤ (current_buffer ++ input_segment.filter (fun c => c = '.' ∨ c = '-')).length →
      (current_buffer ++ input_segment.filter (fun c => c = '.' ∨ c = '-')).take 4
        ≠ "--.-".toList →
      stream_update current_buffer input_segment
        = (DecodeEvent.Discarded DiscardReason.not_q, [])) ∧
    (∀ s : List Char, dot_dash s → s.length = 6 → s.take 4 ≠ "--.-".toList →
      feed_symbols s
        = (List.replicate 5 DecodeEvent.Waiting
            ++ [DecodeEvent.Discarded DiscardReason.not_q], [])) := by
  refine ⟨fun cb seg hlen hq => stream_update_not_q cb seg _ rfl hlen hq, ?_⟩
  intro s hs hlen hq
  have h5 : (5 : Nat) < s.length := by omega
  have hc : s.get ⟨5, h5⟩ = '.' ∨ s.get ⟨5, h5⟩ = '-' := hs _ (List.get_mem _ _ _)
  have hw := feed_symbols_waiting s hs 5 (by omega) (fun m h1 h2 => by omega)
  have h6 : s.take 6 = s := List.take_of_length_le (by omega)
  have hupd := stream_update_not_q (s.take 5) [s.get ⟨5, h5⟩] s
    (by rw [filter_symbol _ hc, ← take_succ_snoc s 5 h5, h6]) (by omega) hq
  have hfeed := feed_symbols_snoc (s.take 5) (s.get ⟨5, h5⟩)
  rw [← take_succ_snoc s 5 h5, h6, hw] at hfeed
  rw [hfeed]
  simp only [hupd]

/-- C7 on the update that appends `..` to `....`, and on the sequence `......`. -/
theorem non_q_discarded_witness :
    stream_update "....".toList "..".toList = (DecodeEvent.Discarded DiscardReason.not_q, []) ∧
    feed_symbols "......".toList
      = (List.replicate 5 DecodeEvent.Waiting
          ++ [DecodeEvent.Discarded DiscardReason.not_q], []) :=
  ⟨non_q_discarded.1 "....".toList "..".toList (by decide) (by decide),
   non_q_discarded.2 "......".toList (by decide) (by decide) (by decide)⟩

/-- C8: an update after which the buffer has 6 or more symbols, begins with `--.-` and has no
registry-valid split reports `Discarded` and empties the buffer when the buffer has more than 13
symbols, and otherwise reports `Waiting` and keeps the buffer; and a Q-prefixed sequence fed one
symbol at a time that never forms a registry-valid split is `Discarded` on its 14th symbol. -/
theorem q_without_split :
    (∀ current_buffer input_segment : List Char,
      6 ≤ (current_buffer ++ input_segment.filter (fun c => c = '.' ∨ c = '-')).length →
      (current_buffer ++ input_segment.filter (fun c => c = '.' ∨ c = '-')).take 4
        = "--.-".toList →
      (¬ ∃ i, valid_split build_morse_tree
        ((current_buffer ++ input_segment.filter (fun c => c = '.' ∨ c = '-')).drop 4) i) →
      (13 < (current_buffer ++ input_segment.filter (fun c => c = '.' ∨ c = '-')).length →
        stream_update current_buffer input_segment
          = (DecodeEvent.Discarded DiscardReason.too_long, [])) ∧
      ((current_buffer ++ input_segment.filter (fun c => c = '.' ∨ c = '-')).length ≤ 13 →
        stream_update current_buffer input_segment
          = (DecodeEvent.Waiting,
              current_buffer ++ input_segment.filter (fun c => c = '.' ∨ c = '-')))) ∧
    (∀ s : List Char, dot_dash s → s.length = 14 → s.take 4 = "--.-".toList →
      (∀ m, 6 ≤ m → m ≤ 14 → ¬ ∃ i, valid_split build_morse_tree ((s.take m).drop 4) i) →
      feed_symbols s
        = (List.replicate 13 DecodeEvent.Waiting
            ++ [DecodeEvent.Discarded DiscardReason.too_long], [])) := by
  constructor
  · intro cb seg hlen hq hno
    have hnil := (try_decode_spaceless_q_eq_nil _ hlen hq).2 (fun i hi => hno ⟨i, hi⟩)
    exact ⟨fun h13 => stream_update_too_long cb seg _ rfl h13 hq hnil,
      fun h13 => stream_update_waiting cb seg _ rfl (Or.inr ⟨hq, hnil, h13⟩)⟩
  · intro s hs hlen hq hno
    have hqm : ∀ m, 6 ≤ m → (s.take m).take 4 = "--.-".toList := by
      intro m hm
      rw [List.take_take, Nat.min_eq_left (by omega)]
      exact hq
    have hnil : ∀ m, 6 ≤ m → m ≤ 14 →
        try_decode_spaceless_q build_morse_tree (s.take m) = [] := by
      intro m h1 h2
      exact (try_decode_spaceless_q_eq_nil _ (by simp only [List.length_take]; omega)
        (hqm m h1)).2 (fun i hi => hno m h1 h2 ⟨i, hi⟩)
    have h13 : (13 : Nat) < s.length := by omega
    have hc : s.get ⟨13, h13⟩ = '.' ∨ s.get ⟨13, h13⟩ = '-' := hs _ (List.get_mem _ _ _)
    have hw := feed_symbols_waiting s hs 13 (by omega)
      (fun m h1 h2 => ⟨hqm m h1, hnil m h1 (by omega), h2⟩)
    have h14 : s.take 14 = s := List.take_of_length_le (by omega)
    have hnil14 := hnil 14 (by omega) (le_refl _)
    rw [h14] at hnil14
    have hupd := stream_update_too_long (s.take 13) [s.get ⟨13, h13⟩] s
      (by rw [filter_symbol _ hc, ← take_succ_snoc s 13 h13, h14]) (by omega) hq hnil14
    have hfeed := feed_symbols_snoc (s.take 13) (s.get ⟨13, h13⟩)
    rw [← take_succ_snoc s 13 h13, h14, hw] at hfeed
    rw [hfeed]
    simp only [hupd]

/-- No prefix of `--.-.--.......` has a registry-valid split: the remainder begins with `.--`,
so its first part is one of `E`, `A`, `W`, `J`, `P`, `1`. -/
theorem no_split_example : ∀ m, 6 ≤ m → m ≤ 14 →
    ¬ ∃ i, valid_split build_morse_tree (("--.-.--.......".toList.take m).drop 4) i := by
  intro m h1 h2
  rintro ⟨i, hi⟩
  interval_cases m <;>
    exact (try_decode_spaceless_q_eq_nil _ (by decide) (by decide)).1 (by decide) i hi

/-- C8 on the updates that append `.` to `--.-.--` (8 symbols, kept) and to `--.-.--......`
(14 symbols, discarded), and on the sequence `--.-.--.......` fed symbol by symbol. -/
theorem q_without_split_witness :
    stream_update "--.-.--".toList ".".toList = (DecodeEvent.Waiting, "--.-.--.".toList) ∧
    stream_update "--.-.--......".toList ".".toList
      = (DecodeEvent.Discarded DiscardReason.too_long, []) ∧
    feed_symbols "--.-.--.......".toList
      = (List.replicate 13 DecodeEvent.Waiting
          ++ [DecodeEvent.Discarded DiscardReason.too_long], []) :=
  ⟨(q_without_split.1 "--.-.--".toList ".".toList (by decide) (by decide)
      (no_split_example 8 (by decide) (by decide))).2 (by decide),
   (q_without_split.1 "--.-.--......".toList ".".toList (by decide) (by decide)
      (no_split_example 14 (by decide) (by decide))).1 (by decide),
   q_without_split.2 "--.-.--.......".toList (by decide) (by decide) (by decide)
      no_split_example⟩

/-! ## `greedy` and `decodeToken` -/

/-- The inner loop of `greedy` only returns a length at least the one it starts from. -/
theorem greedy_scan_len (s : List Char) (n : Int) (i todo len : Nat) (ch : Char) (l : Nat)
    (h : greedy_scan s n i todo len = some (ch, l)) : len ≤ l := by
  induction todo generalizing len with
  | zero => simp [greedy_scan] at h
  | succ todo ih =>
    simp only [greedy_scan] at h
    split_ifs at h with hc
    · cases hm : morse.lookup ((s.drop i).take len) with
      | some c =>
        rw [hm] at h
        simp only [Option.some.injEq, Prod.mk.injEq] at h
        omega
      | none =>
        rw [hm] at h
        have := ih (len + 1) h
        omega

/-- The bound on the passes of the `while` loop of `greedy` is never reached before the loop
ends by itself: any two bounds of at least `n - i` passes give the same result. -/
theorem greedy_loop_fuel_enough (s : List Char) (n : Int) (fuel fuel2 i : Nat) (res : List Char)
    (h1 : (n - i).toNat ≤ fuel) (h2 : (n - i).toNat ≤ fuel2) :
    greedy_loop s n fuel i res = greedy_loop s n fuel2 i res := by
  induction fuel generalizing fuel2 i res with
  | zero =>
    cases fuel2 with
    | zero => rfl
    | succ f =>
      simp only [greedy_loop]
      rw [if_neg (by omega)]
  | succ fuel ih =>
    cases fuel2 with
    | zero =>
      simp only [greedy_loop]
      rw [if_neg (by omega)]
    | succ f =>
      simp only [greedy_loop]
      by_cases hin : (i : Int) < n
      · rw [if_pos hin, if_pos hin]
        cases hscan : greedy_scan s n i 5 1 with
        | none => rfl
        | some p =>
          obtain ⟨ch, l⟩ := p
          have hl := greedy_scan_len s n i 5 1 ch l hscan
          exact ih f (i + l) (res ++ [ch]) (by push_cast; omega) (by push_cast; omega)
      · rw [if_neg hin, if_neg hin]

/-- C9: for every string `rest`, `decodeToken` of `--.---` followed by `.-.` and `rest` is `QTC`
followed by `greedy(rest)`; and for every suffix `s` that the family-T suffix table maps to a
letter `x`, `decodeToken` of `--.---` followed by `s` and `rest` is `QT`, `x`, then
`greedy(rest)`. -/
theorem decodeToken_family_T (rest : List Char) :
    decodeToken ("--.---".toList ++ ".-.".toList ++ rest) = "QTC".toList ++ greedy rest ∧
    ∀ (s : List Char) (x : Char), (Qsuffix_at 'T').lookup s = some x →
      decodeToken ("--.---".toList ++ s ++ rest) = "QT".toList ++ [x] ++ greedy rest := by
  have key : ∀ (s : List Char) (x : Char), (Qsuffix_at 'T').lookup s = some x →
      decodeToken ("--.---".toList ++ s ++ rest) = "QT".toList ++ [x] ++ greedy rest := by
    intro s x hx
    have hmem := mem_of_lookup_eq_some hx
    have hcases : (s, x) = (".-.".toList, 'C') ∨ (s, x) = ("..-".toList, 'X') := by
      simpa [Qsuffix_at, Qsuffix, List.lookup] using hmem
    rcases hcases with h | h
    · obtain ⟨rfl, rfl⟩ := Prod.mk.inj h
      have hlen : ¬ ("--.---".toList ++ ".-.".toList ++ rest).length < 6 := by
        simp
      have hlen9 : ¬ ("--.---".toList ++ ".-.".toList ++ rest).length < 9 := by
        simp
      unfold decodeToken
      rw [if_neg hlen]
      have hp : Qprefix.lookup (("--.---".toList ++ ".-.".toList ++ rest).take 6) = some 'T' := by
        rfl
      simp only [hp]
      rw [if_pos trivial, if_neg hlen9]
      have hs : (Qsuffix_at 'T').lookup
          ((("--.---".toList ++ ".-.".toList ++ rest).drop 6).take 3) = some 'C' := by rfl
      simp only [hs]
      rfl
    · obtain ⟨rfl, rfl⟩ := Prod.mk.inj h
      have hlen : ¬ ("--.---".toList ++ "..-".toList ++ rest).length < 6 := by
        simp
      have hlen9 : ¬ ("--.---".toList ++ "..-".toList ++ rest).length < 9 := by
        simp
      unfold decodeToken
      rw [if_neg hlen]
      have hp : Qprefix.lookup (("--.---".toList ++ "..-".toList ++ rest).take 6) = some 'T' := by
        rfl
      simp only [hp]
      rw [if_pos trivial, if_neg hlen9]
      have hs : (Qsuffix_at 'T').lookup
          ((("--.---".toList ++ "..-".toList ++ rest).drop 6).take 3) = some 'X' := by rfl
      simp only [hs]
      rfl
  exact ⟨key ".-.".toList 'C' rfl, key⟩

/-- C9 at the suffix `..-` (mapped to `X`) with the trailing symbols `.-`. -/
theorem decodeToken_family_T_witness :
    decodeToken "--.---..-.-".toList = "QTXET".toList :=
  (decodeToken_family_T ".-".toList).2 "..-".toList 'X' (by decide)

/-- C10: for every token of 6 or more symbols, `decodeToken` returns exactly `?` whenever its
first 6 symbols are not a key of the prefix table, or the token is shorter than the prefix plus
the suffix width of its family (9 for family `T`, 12 for family `U`), or the suffix lookup of
its family fails (for family `U`, the lookup of either 3-symbol half). -/
theorem decodeToken_failure (s : List Char) (hlen : 6 ≤ s.length)
    (h : Qprefix.lookup (s.take 6) = none ∨
      ( Qprefix.lookup (s.take 6) = some 'T' ∧
        (s.length < 9 ∨ (Qsuffix_at 'T').lookup ((s.drop 6).take 3) = none)) ∨
      ( Qprefix.lookup (s.take 6) = some 'U' ∧
        (s.length < 12 ∨ (Qsuffix_at 'U').lookup ((s.drop 6).take 3) = none ∨
          (Qsuffix_at 'U').lookup ((s.drop 9).take 3) = none))) :
    decodeToken s = ['?'] := by
  unfold decodeToken
  rw [if_neg (by omega)]
  rcases h with h | ⟨h, h2⟩ | ⟨h, h2⟩
  · simp only [h]
    unfold decodeToken_plain
    rw [if_pos hlen]
  · simp only [h]
    rw [if_pos trivial]
    by_cases h9 : s.length < 9
    · rw [if_pos h9]
    · rw [if_neg h9]
      rcases h2 with h2 | h2
      · exact absurd h2 h9
      · simp only [h2]
  · simp only [h]
    have hTU : ¬ ('U' = 'T') := by decide
    rw [if_neg hTU, if_pos trivial]
    by_cases h12 : s.length < 12
    · rw [if_pos h12]
    · rw [if_neg h12]
      rcases h2 with h2 | h2 | h2
      · exact absurd h2 h12
      · simp only [h2]
      · simp only [h2]
        cases (Qsuffix_at 'U').lookup ((s.drop 6).take 3) <;> rfl

/-- C10 on four tokens: `......` (no family), `--.---.-` (family `T`, 8 symbols), `--.---...`
(family `T`, suffix `...` unknown) and `--.-....-...` (family `U`, second half `...`
unknown). -/
theorem decodeToken_failure_witness :
    decodeToken "......".toList = ['?'] ∧ decodeToken "--.---.-".toList = ['?'] ∧
    decodeToken "--.---...".toList = ['?'] ∧ decodeToken "--.-....-...".toList = ['?'] :=
  ⟨decodeToken_failure "......".toList (by decide) (Or.inl (by decide)),
   decodeToken_failure "--.---.-".toList (by decide)
     (Or.inr (Or.inl ⟨by decide, Or.inl (by decide)⟩)),
   decodeToken_failure "--.---...".toList (by decide)
     (Or.inr (Or.inl ⟨by decide, Or.inr (by decide)⟩)),
   decodeToken_failure "--.-....-...".toList (by decide)
     (Or.inr (Or.inr ⟨by decide, Or.inr (Or.inr (by decide))⟩))⟩

/-! ## The registry and the split index -/

set_option maxRecDepth 100000 in
/-- In every registry entry the second character is one of `R`, `S`, `T`, `U` and the third is
a letter. -/
theorem registry_letters : ∀ q ∈ Q_CODES,
    q.getD 1 NUL ∈ ['R', 'S', 'T', 'U'] ∧ (q.getD 2 NUL).isUpper = true := by
  decide

theorem first_part_codes : ∀ p ∈ morse, p.2 ∈ ['R', 'S', 'T', 'U'] →
    p.1 ∈ [".-.".toList, "...".toList, "-".toList, "..-".toList] := by
  decide

theorem letter_code_length : ∀ p ∈ morse, p.2.isUpper = true → p.1.length ≤ 4 := by
  decide

/-- A string that looks up to a character is a key of the map `morse` with that character. -/
theorem lookup_mem_morse {s : List Char}
    (h : morse_segment_to_char build_morse_tree s ≠ NUL) :
    (s, morse_segment_to_char build_morse_tree s) ∈ morse := by
  have heq := lookup_eq_morse s
  cases hl : morse.lookup s with
  | none =>
    rw [hl] at heq
    exact absurd heq h
  | some c =>
    rw [hl] at heq
    rw [heq]
    exact mem_of_lookup_eq_some hl

/-- At a hit the first part is the code of `R`, `S`, `T` or `U` and the second part is the code
of a letter, so it has 1 to 4 symbols. -/
theorem split_hit_parts {r : List Char} {i : Nat} (h : split_hit build_morse_tree r i) :
    r.take i ∈ [".-.".toList, "...".toList, "-".toList, "..-".toList] ∧
      1 ≤ (r.drop i).length ∧ (r.drop i).length ≤ 4 := by
  obtain ⟨h1, h2, h3⟩ := h
  obtain ⟨hq1, hq2⟩ := registry_letters _ h3
  have m1 := lookup_mem_morse h1
  have m2 := lookup_mem_morse h2
  refine ⟨first_part_codes _ m1 hq1, (lookup_ne_NUL_length h2).1, letter_code_length _ m2 hq2⟩

/-- Two registry-valid split indices in increasing order do not exist. -/
theorem no_two_hits {r : List Char} {i j : Nat} (hij : i < j)
    (hi : valid_split build_morse_tree r i) (hj : valid_split build_morse_tree r j) : False := by
  obtain ⟨hi1, hi2, hi3⟩ := hi
  obtain ⟨_, hj2, hj3⟩ := hj
  have pi := (split_hit_parts hi3).1
  have pj := (split_hit_parts hj3).1
  have hli : (r.take i).length = i := by simp only [List.length_take]; omega
  have hlj : (r.take j).length = j := by simp only [List.length_take]; omega
  have htake : r.take i = (r.take j).take i := by
    rw [List.take_take, Nat.min_eq_left (by omega)]
  simp only [List.mem_cons, List.mem_singleton, List.mem_nil_iff, or_false] at pi pj
  rcases pj with pj | pj | pj | pj <;> rw [pj] at hlj htake <;>
    rcases pi with pi | pi | pi | pi <;> rw [pi] at hli htake <;>
    simp only [String.toList, List.length_cons, List.length_nil] at hli hlj <;>
    subst hli <;> first | omega | (simp at htake)

/-- C16: for every buffer, at most one split index of the remainder (the buffer without its
first 4 symbols) gives two parts that look up to characters whose candidate code is in the
registry. -/
theorem unique_valid_split (buffer : List Char) (i j : Nat)
    (hi : valid_split build_morse_tree (buffer.drop 4) i)
    (hj : valid_split build_morse_tree (buffer.drop 4) j) : i = j := by
  rcases Nat.lt_trichotomy i j with h | h | h
  · exact (no_two_hits h hi hj).elim
  · exact h
  · exact (no_two_hits h hj hi).elim

/-- C16 on `--.-.-.-`: the cuts at 1, 2 and 3 all give two characters (`E`,`K`; `A`,`A`;
`R`,`T`), and 3 is the only registry-valid split index. -/
theorem unique_valid_split_witness :
    split_code build_morse_tree ".-.-".toList 1 = ['Q', 'E', 'K'] ∧
    split_code build_morse_tree ".-.-".toList 2 = ['Q', 'A', 'A'] ∧
    split_code build_morse_tree ".-.-".toList 3 = ['Q', 'R', 'T'] ∧
    valid_split build_morse_tree ("--.-.-.-".toList.drop 4) 3 ∧
    ∀ j, valid_split build_morse_tree ("--.-.-.-".toList.drop 4) j → j = 3 :=
  ⟨by decide, by decide, by decide, by decide,
   fun j hj => unique_valid_split "--.-.-.-".toList j 3 hj (by decide)⟩

/-- A buffer on which the split search finds a code has 6 to 11 symbols. -/
theorem try_decode_spaceless_q_ne_nil_length {buffer : List Char}
    (h : try_decode_spaceless_q build_morse_tree buffer ≠ []) :
    6 ≤ buffer.length ∧ buffer.length ≤ 11 := by
  obtain ⟨hq, hlen, _⟩ := try_decode_spaceless_q_ne_nil_bounds h
  refine ⟨hlen, ?_⟩
  have hex : ∃ i, valid_split build_morse_tree (buffer.drop 4) i := by
    by_contra hno
    exact h ((try_decode_spaceless_q_eq_nil buffer hlen hq).2 (fun i hi => hno ⟨i, hi⟩))
  obtain ⟨i, _, hi2, hi3⟩ := hex
  obtain ⟨p1, _, p3⟩ := split_hit_parts hi3
  have hli : ((buffer.drop 4).take i).length = i := by
    simp only [List.length_take]
    omega
  have hi3 : i ≤ 3 := by
    simp only [List.mem_cons, List.mem_singleton, List.mem_nil_iff, or_false] at p1
    rcases p1 with p1 | p1 | p1 | p1 <;> rw [p1] at hli <;>
      simp only [String.toList, List.length_cons, List.length_nil] at hli <;> omega
  simp only [List.length_drop] at p3 hi2
  omega

/-- C19: a buffer on which `try_decode_spaceless_q` returns a Q-code has between 6 and 11
symbols; so no buffer of 12 or more symbols resolves, a buffer of 11 symbols never resolves
by appending further symbols, and the stream loop still keeps a Q-prefixed buffer of 12 or 13
symbols, reporting `Waiting`. -/
theorem resolve_length_bounds :
    (∀ buffer : List Char, try_decode_spaceless_q build_morse_tree buffer ≠ [] →
      6 ≤ buffer.length ∧ buffer.length ≤ 11) ∧
    (∀ buffer : List Char, 12 ≤ buffer.length →
      try_decode_spaceless_q build_morse_tree buffer = []) ∧
    (∀ b ext : List Char, b.length = 11 → ext ≠ [] →
      try_decode_spaceless_q build_morse_tree (b ++ ext) = []) ∧
    (∀ current_buffer input_segment : List Char,
      (current_buffer ++ input_segment.filter (fun c => c = '.' ∨ c = '-')).take 4
        = "--.-".toList →
      12 ≤ (current_buffer ++ input_segment.filter (fun c => c = '.' ∨ c = '-')).length →
      (current_buffer ++ input_segment.filter (fun c => c = '.' ∨ c = '-')).length ≤ 13 →
      stream_update current_buffer input_segment
        = (DecodeEvent.Waiting,
            current_buffer ++ input_segment.filter (fun c => c = '.' ∨ c = '-'))) := by
  have h12 : ∀ buffer : List Char, 12 ≤ buffer.length →
      try_decode_spaceless_q build_morse_tree buffer = [] := by
    intro buffer hlen
    by_contra hne
    have := (try_decode_spaceless_q_ne_nil_length hne).2
    omega
  refine ⟨fun buffer h => try_decode_spaceless_q_ne_nil_length h, h12, ?_, ?_⟩
  · intro b ext hb hext
    apply h12
    have : 1 ≤ ext.length := List.length_pos.2 hext
    simp only [List.length_append]
    omega
  · intro cb seg hq hlo hhi
    exact stream_update_waiting cb seg _ rfl (Or.inr ⟨hq, h12 _ hlo, hhi⟩)

/-- C19 on `--.-..--...` (`Q`, `U`, `B`: 11 symbols, resolved), on the 12 symbols
`--.-..--....`, and on the update that brings `--.-..-.....` to 13 symbols. -/
theorem resolve_length_bounds_witness :
    (6 ≤ "--.-..--...".toList.length ∧ "--.-..--...".toList.length ≤ 11) ∧
    try_decode_spaceless_q build_morse_tree "--.-..--....".toList = [] ∧
    try_decode_spaceless_q build_morse_tree ("--.-..-....".toList ++ ".".toList) = [] ∧
    stream_update "--.-..-.....".toList ".".toList
      = (DecodeEvent.Waiting, "--.-..-......".toList) :=
  ⟨resolve_length_bounds.1 "--.-..--...".toList (by decide),
   resolve_length_bounds.2.1 "--.-..--....".toList (by decide),
   resolve_length_bounds.2.2.1 "--.-..-....".toList ".".toList (by decide) (by decide),
   resolve_length_bounds.2.2.2 "--.-..-.....".toList ".".toList (by decide) (by decide)
     (by decide)⟩

/-- The buffer kept by one update satisfies the retention condition, whatever the buffer
before. -/
theorem stream_update_retained (current_buffer input_segment : List Char) :
    retained_ok (stream_update current_buffer input_segment).2 := by
  have hnil : retained_ok [] := ⟨by simp, fun h => by simp at h⟩
  simp only [stream_update, ge_iff_le, gt_iff_lt]
  split_ifs with h6 hq hres h13
  · exact hnil
  · exact hnil
  · exact hnil
  · refine ⟨Nat.le_of_not_lt h13, fun _ => ⟨not_not.1 hq, ?_⟩⟩
    rintro ⟨i, hi⟩
    exact (try_decode_spaceless_q_eq_nil _ h6 (not_not.1 hq)).1 (not_not.1 hres) i hi
  · have h5 : (current_buffer
        ++ input_segment.filter (fun c => c = '.' ∨ c = '-')).length ≤ 13 := by omega
    exact ⟨h5, fun h => absurd h h6⟩

/-- The buffer at the end of the loop satisfies the retention condition if the buffer at the
start does. -/
theorem stream_loop_retained (inputs : List (List Char)) (buf : List Char)
    (h : retained_ok buf) : retained_ok (stream_loop buf inputs).2 := by
  induction inputs generalizing buf with
  | nil => exact h
  | cons seg rest ih =>
    simp only [stream_loop]
    split_ifs
    · exact h
    · exact ih _ (stream_update_retained buf seg)

/-- C17: in every state reached from the empty buffer by any sequence of updates, the buffer
kept has at most 13 symbols, and if it has 6 or more it begins with `--.-` and has no
registry-valid split. -/
theorem stream_invariant (inputs : List (List Char)) :
    (stream_loop [] inputs).2.length ≤ 13 ∧
    (6 ≤ (stream_loop [] inputs).2.length →
      (stream_loop [] inputs).2.take 4 = "--.-".toList ∧
      ¬ ∃ i, valid_split build_morse_tree ((stream_loop [] inputs).2.drop 4) i) :=
  stream_loop_retained inputs [] ⟨by simp, fun h => by simp at h⟩

/-- C20: `QRA` is in the registry and its encoding without separators is `--.-.-..-`; fed one
symbol at a time from the empty buffer, the 8th symbol already reports `Resolved` with `QRE`,
another registry code, and empties the buffer, so the 9th symbol starts a new buffer. -/
theorem streaming_misses_QRA :
    "QRA".toList ∈ Q_CODES ∧ "QRE".toList ∈ Q_CODES ∧
    code_of 'Q' ++ code_of 'R' ++ code_of 'A' = "--.-.-..-".toList ∧
    feed_symbols ("--.-.-..-".toList.take 8)
      = (List.replicate 7 DecodeEvent.Waiting ++ [DecodeEvent.Resolved "QRE".toList], []) ∧
    feed_symbols "--.-.-..-".toList
      = (List.replicate 7 DecodeEvent.Waiting
          ++ [DecodeEvent.Resolved "QRE".toList, DecodeEvent.Waiting], "-".toList) := by
  decide

/-! ## `greedy`, symbol by symbol -/

/-- A key of the map `morse` begins with a dot or a dash. -/
theorem morse_lookup_head {c : Char} {rest : List Char} {x : Char}
    (h : morse.lookup (c :: rest) = some x) : c = '.' ∨ c = '-' :=
  (morse_key_lengths _ (mem_of_lookup_eq_some h)).2.2 c (List.mem_cons_self _ _)

/-- No string that begins with another character is a key of the map `morse`. -/
theorem morse_lookup_unknown {c : Char} {rest : List Char} (h1 : c ≠ '.') (h2 : c ≠ '-') :
    morse.lookup (c :: rest) = none := by
  cases h : morse.lookup (c :: rest) with
  | none => rfl
  | some x =>
    rcases morse_lookup_head h with h3 | h3
    · exact absurd h3 h1
    · exact absurd h3 h2

/-- At a character other than a dot or a dash the inner loop of `greedy` finds no length. -/
theorem greedy_scan_unknown (s : List Char) (n : Int) (i : Nat) (c : Char) (rest : List Char)
    (hdrop : s.drop i = c :: rest) (h1 : c ≠ '.') (h2 : c ≠ '-') (todo len : Nat) :
    greedy_scan s n i todo (len + 1) = none := by
  induction todo generalizing len with
  | zero => rfl
  | succ todo ih =>
    simp only [greedy_scan]
    split_ifs with hc
    · rw [hdrop, List.take_succ_cons, morse_lookup_unknown h1 h2]
      exact ih (len + 1)
    · rfl

/-- At a dot the inner loop of `greedy` stops at length 1 with `E`, at a dash with `T`. -/
theorem greedy_scan_symbol (s : List Char) (n : Int) (i : Nat) (rest : List Char)
    (hin : (i : Int) < n) :
    (s.drop i = '.' :: rest → greedy_scan s n i 5 1 = some ('E', 1)) ∧
    (s.drop i = '-' :: rest → greedy_scan s n i 5 1 = some ('T', 1)) := by
  have hc : 1 ≤ 5 ∧ ((i + 1 : Nat) : Int) ≤ n := ⟨by omega, by push_cast; omega⟩
  constructor
  · intro hdrop
    simp only [greedy_scan]
    rw [if_pos hc, hdrop]
    rfl
  · intro hdrop
    simp only [greedy_scan]
    rw [if_pos hc, hdrop]
    rfl

/-- The `while` loop of `greedy`, when `n` is the length of the token: from position `i` it
appends the symbol-by-symbol reading of the rest of the token. -/
theorem greedy_loop_eq (s : List Char) (fuel i : Nat) (res : List Char)
    (hi : i ≤ s.length) (hfuel : s.length - i ≤ fuel) :
    greedy_loop s (s.length : Int) fuel i res = res ++ greedy_symbols (s.drop i) := by
  induction fuel generalizing i res with
  | zero =>
    have : s.drop i = [] := List.drop_eq_nil_of_le (by omega)
    rw [this]
    simp [greedy_loop, greedy_symbols]
  | succ fuel ih =>
    simp only [greedy_loop]
    by_cases hin : (i : Int) < (s.length : Int)
    · rw [if_pos hin]
      have hlt : i < s.length := by omega
      have hdrop : s.drop i = s.get ⟨i, hlt⟩ :: s.drop (i + 1) := by
        rw [List.get_eq_getElem]
        exact List.drop_eq_getElem_cons hlt
      generalize s.get ⟨i, hlt⟩ = c at hdrop
      by_cases h1 : c = '.'
      · subst h1
        rw [(greedy_scan_symbol s _ i _ hin).1 hdrop, hdrop]
        simp only [greedy_symbols]
        rw [ih (i + 1) (res ++ ['E']) (by omega) (by omega)]
        simp
      · by_cases h2 : c = '-'
        · subst h2
          rw [(greedy_scan_symbol s _ i _ hin).2 hdrop, hdrop]
          simp only [greedy_symbols]
          rw [ih (i + 1) (res ++ ['T']) (by omega) (by omega)]
          simp
        · have hscan : greedy_scan s (s.length : Int) i 5 1 = none :=
            greedy_scan_unknown s _ i c _ hdrop h1 h2 5 0
          rw [hscan, hdrop]
          simp only [greedy_symbols, if_neg h1, if_neg h2]
    · rw [if_neg hin]
      have : s.drop i = [] := List.drop_eq_nil_of_le (by omega)
      rw [this]
      simp [greedy_symbols]

/-- On a token of fewer than `2^31` symbols `greedy` is the symbol-by-symbol reading: `E` for
each dot and `T` for each dash of the leading run of dots and dashes, then one `?` if another
character follows. -/
theorem greedy_eq_greedy_symbols (token : List Char) (h : token.length < 2147483648) :
    greedy token = greedy_symbols token := by
  unfold greedy
  simp only [toInt_of_lt _ h, Int.toNat_ofNat]
  rw [greedy_loop_eq token token.length 0 [] (by omega) (by omega)]
  simp

/-- The reading of a token of dots and dashes: as long as the token, without `?`, only `E` and
`T`. -/
theorem greedy_symbols_dot_dash (token : List Char) (h : dot_dash token) :
    (greedy_symbols token).length = token.length ∧
      ∀ x ∈ greedy_symbols token, x = 'E' ∨ x = 'T' := by
  induction token with
  | nil => simp [greedy_symbols]
  | cons c rest ih =>
    obtain ⟨ih1, ih2⟩ := ih (fun x hx => h x (List.mem_cons_of_mem _ hx))
    rcases h c (List.mem_cons_self _ _) with hc | hc
    · subst hc
      simp only [greedy_symbols, if_true, List.length_cons, ih1, List.mem_cons]
      exact ⟨trivial, fun x hx => hx.elim Or.inl (ih2 x)⟩
    · subst hc
      have hne : ¬ ('-' = '.') := by decide
      simp only [greedy_symbols, if_neg hne, if_true, List.length_cons, ih1, List.mem_cons]
      exact ⟨trivial, fun x hx => hx.elim Or.inr (ih2 x)⟩

/-- The reading in terms of the leading run: the letters of the longest leading run of dots and
dashes, then `?` exactly when the token has another character. -/
theorem greedy_symbols_leading_run (token : List Char) :
    greedy_symbols token
      = ((token.takeWhile fun c => c = '.' ∨ c = '-').map fun c => if c = '.' then 'E' else 'T')
        ++ (if dot_dash token then [] else ['?']) := by
  induction token with
  | nil => simp [greedy_symbols, dot_dash]
  | cons c rest ih =>
    by_cases h1 : c = '.'
    · subst h1
      have hdd : dot_dash ('.' :: rest) ↔ dot_dash rest := by simp [dot_dash]
      simp only [greedy_symbols, if_true, ih, hdd]
      simp [List.takeWhile]
    · by_cases h2 : c = '-'
      · subst h2
        have hdd : dot_dash ('-' :: rest) ↔ dot_dash rest := by simp [dot_dash]
        simp only [greedy_symbols, if_neg h1, if_true, ih, hdd]
        simp [List.takeWhile]
      · have hdd : ¬ dot_dash (c :: rest) := fun h =>
          (h c (List.mem_cons_self _ _)).elim h1 h2
        simp only [greedy_symbols, if_neg h1, if_neg h2, if_neg hdd]
        simp [List.takeWhile, h1, h2]

/-- C18: at a token of `2^31` dots the conversion `int n = s.size()` gives a negative `n`, the
`while (i<n)` loop makes no pass and `greedy` returns the empty string, where the
symbol-by-symbol reading has one `E` per dot (`2^31` characters). -/
theorem greedy_long_token :
    dot_dash (List.replicate 2147483648 '.') ∧
    greedy (List.replicate 2147483648 '.') = [] ∧
    (greedy_symbols (List.replicate 2147483648 '.')).length = 2147483648 := by
  have hdd : dot_dash (List.replicate 2147483648 '.') :=
    fun c hc => Or.inl (List.eq_of_mem_replicate hc)
  refine ⟨hdd, ?_, ?_⟩
  · unfold greedy
    simp only [List.length_replicate]
    have hn : toInt 2147483648 = -2147483648 := by decide
    rw [hn]
    rfl
  · rw [(greedy_symbols_dot_dash _ hdd).1, List.length_replicate]

theorem greedy_symbols_dot (rest : List Char) :
    greedy_symbols ('.' :: rest) = 'E' :: greedy_symbols rest := by
  simp [greedy_symbols]

theorem greedy_symbols_dash (rest : List Char) :
    greedy_symbols ('-' :: rest) = 'T' :: greedy_symbols rest := by
  simp [greedy_symbols]

theorem greedy_symbols_cons_ne_nil (d : Char) (more : List Char) :
    (greedy_symbols (d :: more)).length ≠ 0 := by
  simp only [greedy_symbols]
  split_ifs <;> simp

/-- A token shorter than 6 symbols is decoded by `decodeToken` to exactly one character. -/
theorem decodeToken_short_length (token : List Char) (h : token.length < 6) :
    (decodeToken token).length = 1 := by
  unfold decodeToken
  rw [if_pos h]
  cases morse.lookup token <;> rfl

/-- The 2-symbol token `.-` is decoded to `A` by `decodeToken` and to `ET` by `greedy`. -/
theorem decodeToken_ne_greedy :
    decodeToken ".-".toList = ['A'] ∧ greedy ".-".toList = ['E', 'T'] ∧
      decodeToken ".-".toList ≠ greedy ".-".toList := by
  decide

/-- C13 (amended): a token shorter than 6 symbols is decoded by exact match in the map `morse`
(its character, or `?` when the token is not a key), not by `greedy`; the two agree exactly
when the token has one symbol or begins with a character other than a dot or a dash. -/
theorem decodeToken_short (token : List Char) (h : token.length < 6) :
    decodeToken token = (match morse.lookup token with
      | some ch => [ch]
      | none => ['?']) ∧
    (decodeToken token = greedy token ↔
      token.length = 1 ∨ ∃ c rest, token = c :: rest ∧ c ≠ '.' ∧ c ≠ '-') := by
  have hdec : decodeToken token = (match morse.lookup token with
      | some ch => [ch]
      | none => ['?']) := by
    unfold decodeToken
    rw [if_pos h]
  refine ⟨hdec, ?_⟩
  rw [greedy_eq_greedy_symbols token (by omega)]
  have hlen := decodeToken_short_length token h
  have hunknown : ∀ (c : Char) (rest : List Char), token = c :: rest → c ≠ '.' → c ≠ '-' →
      decodeToken token = greedy_symbols token := by
    intro c rest ht h1 h2
    rw [hdec, ht, morse_lookup_unknown h1 h2]
    simp only [greedy_symbols, if_neg h1, if_neg h2]
  constructor
  · intro heq
    cases token with
    | nil =>
      rw [heq] at hlen
      simp [greedy_symbols] at hlen
    | cons c rest =>
      cases rest with
      | nil => exact Or.inl rfl
      | cons d more =>
        by_cases h1 : c = '.'
        · exfalso
          subst h1
          rw [heq, greedy_symbols_dot, List.length_cons] at hlen
          have := greedy_symbols_cons_ne_nil d more
          omega
        · by_cases h2 : c = '-'
          · exfalso
            subst h2
            rw [heq, greedy_symbols_dash, List.length_cons] at hlen
            have := greedy_symbols_cons_ne_nil d more
            omega
          · exact Or.inr ⟨c, d :: more, rfl, h1, h2⟩
  · rintro (h1 | ⟨c, rest, ht, h1, h2⟩)
    · cases token with
      | nil => simp at h1
      | cons c rest =>
        have hrest : rest = [] := by
          simp only [List.length_cons] at h1
          exact List.length_eq_zero.1 (by omega)
        subst hrest
        by_cases hc1 : c = '.'
        · subst hc1
          rw [hdec]
          rfl
        · by_cases hc2 : c = '-'
          · subst hc2
            rw [hdec]
            rfl
          · exact hunknown c [] rfl hc1 hc2
    · exact hunknown c rest ht h1 h2

/-- C13 (amended) on `.` (one symbol: both give `E`), on `x.` (both give `?`) and on `--`
(`M` by exact match). -/
theorem decodeToken_short_witness :
    decodeToken ".".toList = greedy ".".toList ∧
    decodeToken "x.".toList = greedy "x.".toList ∧
    decodeToken "--".toList = ['M'] :=
  ⟨(decodeToken_short ".".toList (by decide)).2.2 (Or.inl rfl),
   (decodeToken_short "x.".toList (by decide)).2.2
     (Or.inr ⟨'x', ['.'], rfl, by decide, by decide⟩),
   (decodeToken_short "--".toList (by decide)).1⟩

/-! ## The code table and the construction of the tree -/

/-- The code `.` of `E` is a prefix of the code `.-` of `A`: the code table is not
prefix-free. -/
theorem table_not_prefix_free :
    ¬ (∀ e1 ∈ MORSE_DEFINITIONS, ∀ e2 ∈ MORSE_DEFINITIONS, e1 ≠ e2 →
      ¬ e1.code <+: e2.code) := by
  intro h
  exact h ⟨'E', ".".toList⟩ (by decide) ⟨'A', ".-".toList⟩ (by decide) (by decide)
    ⟨['-'], rfl⟩

theorem table_codes_nodup :
    (MORSE_DEFINITIONS.map fun e => e.code).Nodup ∧ (morse.map fun p => p.1).Nodup := by
  decide

/-- Two positions of a list without repetition that hold the same value through `f` hold the
same element. -/
theorem eq_of_map_nodup {α β : Type} (f : α → β) (l : List α) (h : (l.map f).Nodup)
    (x y : α) (hx : x ∈ l) (hy : y ∈ l) (hxy : f x = f y) : x = y :=
  List.inj_on_of_nodup_map h hx hy hxy

/-- C15 (amended): the code strings of two distinct entries of the code table are different,
in `MORSE_DEFINITIONS` and in the map `morse`. -/
theorem table_codes_distinct :
    (∀ e1 ∈ MORSE_DEFINITIONS, ∀ e2 ∈ MORSE_DEFINITIONS, e1 ≠ e2 → e1.code ≠ e2.code) ∧
    (∀ p1 ∈ morse, ∀ p2 ∈ morse, p1 ≠ p2 → p1.1 ≠ p2.1) :=
  ⟨fun e1 h1 e2 h2 hne hc =>
      hne (eq_of_map_nodup _ _ table_codes_nodup.1 e1 e2 h1 h2 hc),
   fun p1 h1 p2 h2 hne hc =>
      hne (eq_of_map_nodup _ _ table_codes_nodup.2 p1 p2 h1 h2 hc)⟩

/-- C15 (amended) on the entries of `E` and `A`. -/
theorem table_codes_distinct_witness :
    ".".toList ≠ ".-".toList ∧ ".".toList ≠ ".-".toList :=
  ⟨table_codes_distinct.1 ⟨'E', ".".toList⟩ (by decide) ⟨'A', ".-".toList⟩ (by decide)
      (by decide),
   table_codes_distinct.2 (".".toList, 'E') (by decide) (".-".toList, 'A') (by decide)
      (by decide)⟩

/-- The line `AB` decodes to `?`, and to the empty string once its unknown characters are
removed. -/
theorem decodeLine_keeps_unknown :
    decodeLine "AB".toList = ['?'] ∧ decodeLine (sanitize "AB".toList) = [] ∧
      decodeLine "AB".toList ≠ decodeLine (sanitize "AB".toList) := by
  decide

/-- No string that begins with a character other than a dash is a key of `Qprefix`. -/
theorem qprefix_lookup_unknown {c : Char} {rest : List Char} (h : c ≠ '-') :
    Qprefix.lookup (c :: rest) = none := by
  have hne : ∀ xs : List Char, ((c :: rest) == '-' :: xs) = false := by
    intro xs
    simp [h]
  simp only [ Qprefix, String.toList, List.lookup, hne]

/-- A token that begins with a character other than a dot or a dash is decoded to `?`. -/
theorem decodeToken_unknown_head (c : Char) (rest : List Char) (h1 : c ≠ '.') (h2 : c ≠ '-') :
    decodeToken (c :: rest) = ['?'] := by
  unfold decodeToken
  by_cases h6 : (c :: rest).length < 6
  · rw [if_pos h6, morse_lookup_unknown h1 h2]
  · rw [if_neg h6]
    have hp : Qprefix.lookup ((c :: rest).take 6) = none := by
      rw [List.take_succ_cons]
      exact qprefix_lookup_unknown h2
    simp only [hp]
    unfold decodeToken_plain
    rw [if_pos (by omega)]

/-- A non-empty line without `'.'`, `'-'` and `' '` is kept whole as one token and decodes to
the placeholder `?`. -/
theorem plain_text_single_token (line : List Char) (hne : line ≠ [])
    (h : ∀ c ∈ line, c ≠ '.' ∧ c ≠ '-' ∧ c ≠ ' ') :
    tokenize line = [line] ∧ decodeLine line = ['?'] := by
  have hrun := tokenize_run_symbols line (fun c hc => (h c hc).2.2) hne [] [] 0 (le_refl 0)
  have htok : tokenize line = [line] := by
    unfold tokenize
    rw [hrun]
    have hlen : line.length ≠ 0 := fun h0 => hne (List.length_eq_zero.1 h0)
    simp [hlen]
  refine ⟨htok, ?_⟩
  unfold decodeLine
  rw [htok]
  cases line with
  | nil => exact absurd rfl hne
  | cons c rest =>
    obtain ⟨h1, h2, h3⟩ := h c (List.mem_cons_self _ _)
    have hsp : c :: rest ≠ [' '] := by
      intro heq
      exact h3 (List.cons.inj heq).1
    simp only [List.foldl_cons, List.foldl_nil, if_neg hsp, List.nil_append]
    exact decodeToken_unknown_head c rest h1 h2

/-- Adding a token without a space to the list adds its characters to the characters of the
tokens other than `" "`. -/
theorem flatten_filter_snoc (toks : List (List Char)) (cur : List Char)
    (hcur : ∀ x ∈ cur, x ≠ ' ') :
    ((toks ++ [cur]).filter fun t => t ≠ [' ']).flatten
      = (toks.filter fun t => t ≠ [' ']).flatten ++ cur := by
  have hne : cur ≠ [' '] := by
    intro h
    exact hcur ' ' (by rw [h]; exact List.mem_singleton.2 rfl) rfl
  simp [List.filter_append, List.filter, hne]

/-- Adding a `" "` token to the list adds no character to the characters of the tokens other
than `" "`. -/
theorem flatten_filter_space (toks : List (List Char)) :
    ((toks ++ [[' ']]).filter fun t => t ≠ [' ']).flatten
      = (toks.filter fun t => t ≠ [' ']).flatten := by
  simp [List.filter_append, List.filter]

/-- One step of the tokenizer: `cur` stays free of spaces, and the characters held (in the
tokens other than `" "`, then in `cur`) grow by the character read unless it is a space. -/
theorem tokenize_step_content (st : TokenizerState) (c : Char)
    (hcur : ∀ x ∈ st.cur, x ≠ ' ') :
    (∀ x ∈ (tokenize_step st c).cur, x ≠ ' ') ∧
    ((tokenize_step st c).tokens.filter fun t => t ≠ [' ']).flatten ++ (tokenize_step st c).cur
      = ((st.tokens.filter fun t => t ≠ [' ']).flatten ++ st.cur)
          ++ [c].filter (fun x => x ≠ ' ') := by
  obtain ⟨toks, cur, sp⟩ := st
  simp only at hcur
  by_cases hc : c = ' '
  · subst hc
    have hf : [' '].filter (fun x => x ≠ ' ') = [] := by decide
    rw [hf, List.append_nil]
    simp only [tokenize_step, if_true]
    split_ifs with h1 h3 h2
    · refine ⟨fun x hx => absurd hx (List.not_mem_nil x), ?_⟩
      simp only [List.append_nil]
      exact flatten_filter_snoc toks cur hcur
    · refine ⟨fun x hx => absurd hx (List.not_mem_nil x), ?_⟩
      have hnil : cur = [] := List.length_eq_zero.1 (not_not.1 h3)
      simp [hnil]
    · refine ⟨hcur, ?_⟩
      simp only
      rw [flatten_filter_space]
    · exact ⟨hcur, rfl⟩
  · have hf : [c].filter (fun x => x ≠ ' ') = [c] := by
      simp [List.filter, hc]
    rw [hf]
    simp only [tokenize_step, if_neg hc]
    refine ⟨?_, by simp⟩
    intro x hx
    rcases List.mem_append.1 hx with hx | hx
    · exact hcur x hx
    · rw [List.mem_singleton.1 hx]
      exact hc

/-- The loop of the tokenizer: the characters held at the end are those held at the start
followed by the characters read other than spaces. -/
theorem tokenize_foldl_content (xs : List Char) (st : TokenizerState)
    (hcur : ∀ x ∈ st.cur, x ≠ ' ') :
    (∀ x ∈ (xs.foldl tokenize_step st).cur, x ≠ ' ') ∧
    ((xs.foldl tokenize_step st).tokens.filter fun t => t ≠ [' ']).flatten
        ++ (xs.foldl tokenize_step st).cur
      = ((st.tokens.filter fun t => t ≠ [' ']).flatten ++ st.cur)
          ++ xs.filter (fun x => x ≠ ' ') := by
  induction xs generalizing st with
  | nil => exact ⟨hcur, by simp⟩
  | cons c rest ih =>
    obtain ⟨h1, h2⟩ := tokenize_step_content st c hcur
    obtain ⟨k1, k2⟩ := ih (tokenize_step st c) h1
    refine ⟨k1, ?_⟩
    rw [List.foldl_cons, k2, h2]
    have hsplit : (c :: rest).filter (fun x => x ≠ ' ')
        = [c].filter (fun x => x ≠ ' ') ++ rest.filter (fun x => x ≠ ' ') := by
      rw [← List.filter_append]
      rfl
    rw [hsplit, List.append_assoc]

/-- The tokens of a line other than the `" "` tokens, one after the other, are the characters
of the line other than the spaces. -/
theorem tokenize_content (line : List Char) :
    ((tokenize line).filter fun t => t ≠ [' ']).flatten = line.filter (fun c => c ≠ ' ') := by
  obtain ⟨h1, h2⟩ := tokenize_foldl_content line ⟨[], [], 0⟩
    (fun x hx => absurd hx (List.not_mem_nil x))
  simp only [List.filter_nil, List.flatten_nil, List.nil_append] at h2
  rw [← h2]
  simp only [tokenize]
  split_ifs with hc
  · exact flatten_filter_snoc _ _ h1
  · have hnil : (line.foldl tokenize_step ⟨[], [], 0⟩).cur = [] :=
      List.length_eq_zero.1 (not_not.1 hc)
    rw [hnil, List.append_nil]

/-- C11 (amended): no character is removed before tokenizing. For every line the tokens other
than the `" "` tokens, one after the other, are exactly the characters of the line other than
`' '`, unknown characters included; and a non-empty line without `'.'`, `'-'` and `' '` is one
token that decodes to the placeholder `?`. -/
theorem tokens_keep_characters (line : List Char) :
    ((tokenize line).filter fun t => t ≠ [' ']).flatten = line.filter (fun c => c ≠ ' ') ∧
    (line ≠ [] → (∀ c ∈ line, c ≠ '.' ∧ c ≠ '-' ∧ c ≠ ' ') →
      tokenize line = [line] ∧ decodeLine line = ['?']) :=
  ⟨tokenize_content line, plain_text_single_token line⟩

/-- C11 (amended) on the line `AB` (one token, decoded to `?`) and on the line `.x  -y z`,
whose tokens `.x`, `-y`, `z` keep the unknown characters `x`, `y`, `z`. -/
theorem tokens_keep_characters_witness :
    (tokenize "AB".toList = ["AB".toList] ∧ decodeLine "AB".toList = ['?']) ∧
    ((tokenize ".x  -y z".toList).filter fun t => t ≠ [' ']).flatten = ".x-yz".toList :=
  ⟨(tokens_keep_characters "AB".toList).2 (by decide) (by decide),
   (tokens_keep_characters ".x  -y z".toList).1⟩

/-! ## Runs of spaces and the space counter -/

/-- Below `2^31 - 1` the increment of the `int` counter is the successor. -/
theorem int_succ_of_lt (x : Int) (h : x < 2147483647) : int_succ x = x + 1 := by
  unfold int_succ
  rw [if_neg (by omega)]

/-- A space sets the space counter to its increment, whatever else it does. -/
theorem tokenize_step_space_sp (st : TokenizerState) :
    (tokenize_step st ' ').sp = int_succ st.sp := by
  simp only [tokenize_step, if_true]
  split_ifs <;> rfl

/-- A space only adds one to the space counter once the counter is 2 or more, below the `int`
bound. -/
theorem tokenize_step_space_late (st : TokenizerState) (h : 2 ≤ st.sp)
    (hb : st.sp < 2147483647) :
    tokenize_step st ' ' = ⟨st.tokens, st.cur, st.sp + 1⟩ := by
  have h1 : ¬ (st.sp + 1 = 1) := by omega
  have h2 : ¬ (st.sp + 1 = 2) := by omega
  simp only [tokenize_step, if_true, int_succ_of_lt st.sp hb, if_neg h1, if_neg h2]

/-- One step from a counter that is not negative and below the `int` bound: the counter stays
non-negative and grows by at most one. -/
theorem tokenize_step_sp_bound (st : TokenizerState) (c : Char) (h0 : 0 ≤ st.sp)
    (hb : st.sp < 2147483647) :
    0 ≤ (tokenize_step st c).sp ∧ (tokenize_step st c).sp ≤ st.sp + 1 := by
  obtain ⟨t, cur, sp⟩ := st
  simp only at h0 hb
  by_cases hc : c = ' '
  · subst hc
    rw [tokenize_step_space_sp, int_succ_of_lt _ hb]
    simp only
    omega
  · rw [tokenize_step_symbol t cur sp c hc h0]
    simp only
    omega

/-- On a line short enough for the counter not to overflow, the counter stays between 0 and
the number of characters read. -/
theorem tokenize_foldl_sp_bound (xs : List Char) (st : TokenizerState) (h0 : 0 ≤ st.sp)
    (hb : st.sp + (xs.length : Int) ≤ 2147483647) :
    0 ≤ (xs.foldl tokenize_step st).sp ∧
      (xs.foldl tokenize_step st).sp ≤ st.sp + (xs.length : Int) := by
  induction xs generalizing st with
  | nil => simp [h0]
  | cons c rest ih =>
    simp only [List.length_cons, Nat.cast_add, Nat.cast_one] at hb ⊢
    obtain ⟨h1, h2⟩ := tokenize_step_sp_bound st c h0 (by omega)
    obtain ⟨k1, k2⟩ := ih (tokenize_step st c) h1 (by omega)
    rw [List.foldl_cons]
    exact ⟨k1, by omega⟩

/-- Two states alike in tokens and `cur`, with counters equal or both 2 or more, stay alike
over the rest of a line short enough for neither counter to overflow. -/
theorem same_tokens_foldl (xs : List Char) (st st2 : TokenizerState)
    (h : same_tokens st st2)
    (hb1 : st.sp + (xs.length : Int) ≤ 2147483647)
    (hb2 : st2.sp + (xs.length : Int) ≤ 2147483647) :
    same_tokens (xs.foldl tokenize_step st) (xs.foldl tokenize_step st2) := by
  induction xs generalizing st st2 with
  | nil => exact h
  | cons c rest ih =>
    obtain ⟨t, cur, sp⟩ := st
    obtain ⟨t2, cur2, sp2⟩ := st2
    obtain ⟨ht, hc, hsp⟩ := h
    simp only at ht hc hsp hb1 hb2
    simp only [List.length_cons, Nat.cast_add, Nat.cast_one] at hb1 hb2
    subst ht hc
    rcases hsp with hsp | ⟨ha, hb⟩
    · subst hsp
      exact ⟨rfl, rfl, Or.inl rfl⟩
    · rw [List.foldl_cons, List.foldl_cons]
      by_cases hsp : c = ' '
      · subst hsp
        rw [tokenize_step_space_late ⟨t, cur, sp⟩ ha (by simp only; omega),
          tokenize_step_space_late ⟨t, cur, sp2⟩ hb (by simp only; omega)]
        exact ih _ _ ⟨rfl, rfl, Or.inr ⟨by simp only; omega, by simp only; omega⟩⟩
          (by simp only; omega) (by simp only; omega)
      · rw [tokenize_step_symbol t cur sp c hsp (by omega),
          tokenize_step_symbol t cur sp2 c hsp (by omega)]
        exact ⟨rfl, rfl, Or.inl rfl⟩

/-- Further spaces after the counter has reached 2 change nothing but the counter, as long as
it does not pass the `int` bound. -/
theorem tokenize_more_spaces (m : Nat) (st : TokenizerState) (h : 2 ≤ st.sp)
    (hb : st.sp + (m : Int) ≤ 2147483647) :
    (List.replicate m ' ').foldl tokenize_step st = ⟨st.tokens, st.cur, st.sp + (m : Int)⟩ := by
  induction m generalizing st with
  | zero => simp
  | succ m ih =>
    simp only [Nat.cast_add, Nat.cast_one] at hb ⊢
    rw [List.replicate_succ, List.foldl_cons, tokenize_step_space_late st h (by omega),
      ih _ (by simp only; omega) (by simp only; omega)]
    simp only [TokenizerState.mk.injEq, true_and]
    omega

/-- A run of `k ≥ 2` spaces that does not overflow the counter leaves the tokenizer in a state
like the one after two spaces; the counter is then the one before plus `k`. -/
theorem tokenize_spaces_same (k : Nat) (hk : 2 ≤ k) (st : TokenizerState) (h0 : 0 ≤ st.sp)
    (hb : st.sp + (k : Int) ≤ 2147483647) :
    same_tokens ((List.replicate k ' ').foldl tokenize_step st)
      ((List.replicate 2 ' ').foldl tokenize_step st) ∧
    ((List.replicate k ' ').foldl tokenize_step st).sp = st.sp + (k : Int) ∧
    ((List.replicate 2 ' ').foldl tokenize_step st).sp = st.sp + 2 := by
  obtain ⟨m, rfl⟩ : ∃ m, k = 2 + m := ⟨k - 2, by omega⟩
  simp only [Nat.cast_add, Nat.cast_ofNat] at hb
  have h2 : ((List.replicate 2 ' ').foldl tokenize_step st).sp = st.sp + 2 := by
    have e : List.replicate 2 ' ' = [' ', ' '] := rfl
    rw [e, List.foldl_cons, List.foldl_cons, List.foldl_nil, tokenize_step_space_sp,
      tokenize_step_space_sp, int_succ_of_lt st.sp (by omega),
      int_succ_of_lt (st.sp + 1) (by omega)]
    omega
  rw [List.replicate_add, List.foldl_append,
    tokenize_more_spaces m _ (by rw [h2]; omega) (by rw [h2]; omega)]
  refine ⟨⟨rfl, rfl, Or.inr ⟨by simp only [h2]; omega, by rw [h2]; omega⟩⟩, ?_, h2⟩
  simp only [h2, Nat.cast_add, Nat.cast_ofNat]
  omega

/-- The token list of a line depends on the final state only through its tokens and `cur`. -/
theorem tokenize_congr (line line2 : List Char)
    (h : same_tokens (line.foldl tokenize_step ⟨[], [], 0⟩)
      (line2.foldl tokenize_step ⟨[], [], 0⟩)) :
    tokenize line = tokenize line2 := by
  unfold tokenize
  obtain ⟨h1, h2, _⟩ := h
  simp only [h1, h2]

/-- No step puts an empty token in the list. -/
theorem tokenize_step_no_empty (st : TokenizerState) (c : Char) (h : [] ∉ st.tokens) :
    [] ∉ (tokenize_step st c).tokens := by
  obtain ⟨t, cur, sp⟩ := st
  by_cases hc : c = ' '
  · subst hc
    simp only [tokenize_step, if_true]
    split_ifs with h1 h3 h2
    · intro hm
      rcases List.mem_append.1 hm with hm | hm
      · exact h hm
      · have hcur : [] = cur := List.mem_singleton.1 hm
        exact h3 (by rw [← hcur]; rfl)
    · exact h
    · intro hm
      rcases List.mem_append.1 hm with hm | hm
      · exact h hm
      · have hsp : ([] : List Char) = [' '] := List.mem_singleton.1 hm
        exact absurd hsp (by simp)
    · exact h
  · simp only [tokenize_step, if_neg hc]
    exact h

theorem tokenize_foldl_no_empty (xs : List Char) (st : TokenizerState) (h : [] ∉ st.tokens) :
    [] ∉ (xs.foldl tokenize_step st).tokens := by
  induction xs generalizing st with
  | nil => exact h
  | cons x rest ih => exact ih _ (tokenize_step_no_empty st x h)

/-- The token list of a line has no empty token. -/
theorem tokenize_no_empty (line : List Char) : [] ∉ tokenize line := by
  have h := tokenize_foldl_no_empty line ⟨[], [], 0⟩ (by simp)
  simp only [tokenize]
  split_ifs with hc
  · intro hm
    rcases List.mem_append.1 hm with hm | hm
    · exact h hm
    · have hcur : [] = (line.foldl tokenize_step ⟨[], [], 0⟩).cur := List.mem_singleton.1 hm
      exact hc (by rw [← hcur]; rfl)
  · exact h

/-- Tokens already in the list are carried along unchanged by a step. -/
theorem tokenize_step_carry (T t : List (List Char)) (cur : List Char) (sp : Int) (c : Char) :
    tokenize_step ⟨T ++ t, cur, sp⟩ c
      = ⟨T ++ (tokenize_step ⟨t, cur, sp⟩ c).tokens, (tokenize_step ⟨t, cur, sp⟩ c).cur,
          (tokenize_step ⟨t, cur, sp⟩ c).sp⟩ := by
  simp only [tokenize_step]
  split_ifs <;> simp [List.append_assoc]

theorem tokenize_foldl_carry (xs : List Char) (T t : List (List Char)) (cur : List Char)
    (sp : Int) :
    xs.foldl tokenize_step ⟨T ++ t, cur, sp⟩
      = ⟨T ++ (xs.foldl tokenize_step ⟨t, cur, sp⟩).tokens,
          (xs.foldl tokenize_step ⟨t, cur, sp⟩).cur,
          (xs.foldl tokenize_step ⟨t, cur, sp⟩).sp⟩ := by
  induction xs generalizing t cur sp with
  | nil => rfl
  | cons x rest ih =>
    rw [List.foldl_cons, List.foldl_cons, tokenize_step_carry]
    exact ih _ _ _

/-- After a line that does not end with a space, and is short enough for the counter not to
overflow, the space counter is 0. -/
theorem tokenize_sp_zero (a : List Char) (h : a.getLast? ≠ some ' ')
    (hlen : (a.length : Int) ≤ 2147483647) :
    (a.foldl tokenize_step ⟨[], [], 0⟩).sp = 0 := by
  rcases List.eq_nil_or_concat a with rfl | ⟨L, c, rfl⟩
  · rfl
  · rw [List.concat_eq_append] at h hlen ⊢
    have hc : c ≠ ' ' := by
      intro hc
      apply h
      simp [hc]
    simp only [List.length_append, List.length_singleton, Nat.cast_add, Nat.cast_one] at hlen
    have hL := (tokenize_foldl_sp_bound L ⟨[], [], 0⟩ (le_refl 0) (by simp only; omega)).1
    rw [List.foldl_append, List.foldl_cons, List.foldl_nil]
    generalize L.foldl tokenize_step ⟨[], [], 0⟩ = st at hL
    obtain ⟨t, cur, sp⟩ := st
    rw [tokenize_step_symbol t cur sp c hc hL]

/-- The token list of a line from the state at the end of the line. -/
theorem tokenize_eq (line : List Char) (st : TokenizerState)
    (h : line.foldl tokenize_step ⟨[], [], 0⟩ = st) :
    tokenize line = if st.cur.length ≠ 0 then st.tokens ++ [st.cur] else st.tokens := by
  subst h
  rfl

/-- Two spaces read with the counter at 0 close the token in `cur` and add one `" "` token. -/
theorem tokenize_two_spaces (t : List (List Char)) (cur : List Char) :
    (List.replicate 2 ' ').foldl tokenize_step ⟨t, cur, 0⟩
      = ⟨(if cur.length ≠ 0 then t ++ [cur] else t) ++ [[' ']], [], 2⟩ := by
  simp [tokenize_step, int_succ]

/-- A run of `k ≥ 2` spaces between a part that does not end with a space and a part that does
not begin with one, on a line short enough for the counter not to overflow, gives the tokens of
the first part, one `" "` token, and the tokens of the second part. -/
theorem tokenize_between (a b : List Char) (k : Nat) (hk : 2 ≤ k)
    (hlen : ((a ++ List.replicate k ' ' ++ b).length : Int) ≤ 2147483647)
    (ha : a.getLast? ≠ some ' ') (hb : b.head? ≠ some ' ') :
    tokenize (a ++ List.replicate k ' ' ++ b) = tokenize a ++ [[' ']] ++ tokenize b := by
  obtain ⟨m, rfl⟩ : ∃ m, k = 2 + m := ⟨k - 2, by omega⟩
  simp only [List.length_append, List.length_replicate, Nat.cast_add, Nat.cast_ofNat] at hlen
  have hrun : (a ++ List.replicate (2 + m) ' ').foldl tokenize_step ⟨[], [], 0⟩
      = ⟨tokenize a ++ [[' ']], [], 2 + (m : Int)⟩ := by
    have hsp := tokenize_sp_zero a ha (by omega)
    have hta := tokenize_eq a _ rfl
    rw [List.foldl_append, List.replicate_add, List.foldl_append, hta]
    generalize a.foldl tokenize_step ⟨[], [], 0⟩ = st at hsp
    obtain ⟨t, cur, sp⟩ := st
    simp only at hsp
    subst hsp
    rw [tokenize_two_spaces, tokenize_more_spaces m _ (le_refl 2) (by simp only; omega)]
  cases b with
  | nil =>
    rw [List.append_nil, tokenize_eq _ _ hrun]
    simp [tokenize]
  | cons c rest =>
    have hc : c ≠ ' ' := by
      intro hc
      apply hb
      simp [hc]
    have hinit : (c :: rest).foldl tokenize_step ⟨[], [], 0⟩
        = rest.foldl tokenize_step ⟨[], [] ++ [c], 0⟩ := by
      rw [List.foldl_cons, tokenize_step_symbol _ _ _ c hc (le_refl 0)]
    have hfull : (a ++ List.replicate (2 + m) ' ' ++ c :: rest).foldl tokenize_step ⟨[], [], 0⟩
        = ⟨(tokenize a ++ [[' ']]) ++ (rest.foldl tokenize_step ⟨[], [] ++ [c], 0⟩).tokens,
            (rest.foldl tokenize_step ⟨[], [] ++ [c], 0⟩).cur,
            (rest.foldl tokenize_step ⟨[], [] ++ [c], 0⟩).sp⟩ := by
      rw [List.foldl_append, hrun, List.foldl_cons,
        tokenize_step_symbol _ _ _ c hc (by omega), ← tokenize_foldl_carry, List.append_nil]
    rw [tokenize_eq _ _ hfull, tokenize_eq _ _ hinit]
    simp only
    split_ifs <;> simp [List.append_assoc]

/-- On a line of at most `2^31 - 1` characters, where the space counter does not overflow: for
all strings `a` and `b` and every `k ≥ 2`, the line with `k` spaces between `a` and `b` has the
same tokens and the same decoding as the line with two spaces; no token is empty; and when `a`
does not end with a space and `b` does not begin with one, the run of spaces gives exactly one
`" "` token between the tokens of `a` and those of `b`. -/
theorem spaces_collapse_below_overflow (a b : List Char) (k : Nat) (hk : 2 ≤ k)
    (hlen : (a ++ List.replicate k ' ' ++ b).length ≤ 2147483647) :
    tokenize (a ++ List.replicate k ' ' ++ b) = tokenize (a ++ List.replicate 2 ' ' ++ b) ∧
    decodeLine (a ++ List.replicate k ' ' ++ b)
      = decodeLine (a ++ List.replicate 2 ' ' ++ b) ∧
    [] ∉ tokenize (a ++ List.replicate k ' ' ++ b) ∧
    (a.getLast? ≠ some ' ' → b.head? ≠ some ' ' →
      tokenize (a ++ List.replicate k ' ' ++ b) = tokenize a ++ [[' ']] ++ tokenize b) := by
  have hlenZ : ((a ++ List.replicate k ' ' ++ b).length : Int) ≤ 2147483647 := by
    exact_mod_cast hlen
  have hsum : (a.length : Int) + (k : Int) + (b.length : Int) ≤ 2147483647 := by
    simpa only [List.length_append, List.length_replicate, Nat.cast_add] using hlenZ
  have htok : tokenize (a ++ List.replicate k ' ' ++ b)
      = tokenize (a ++ List.replicate 2 ' ' ++ b) := by
    apply tokenize_congr
    rw [List.foldl_append, List.foldl_append, List.foldl_append, List.foldl_append]
    obtain ⟨ha0, ha1⟩ := tokenize_foldl_sp_bound a ⟨[], [], 0⟩ (le_refl 0)
      (by simp only; omega)
    simp only [zero_add] at ha1
    obtain ⟨hs, hk1, hk2⟩ := tokenize_spaces_same k hk _ ha0 (by omega)
    exact same_tokens_foldl b _ _ hs (by rw [hk1]; omega) (by rw [hk2]; omega)
  refine ⟨htok, ?_, tokenize_no_empty _,
    fun ha hb => tokenize_between a b k hk hlenZ ha hb⟩
  unfold decodeLine
  rw [htok]

/-- The state of the tokenizer after `.-` and `2^31` spaces: the tokens `.-` and `" "`, and the
space counter wrapped to `-2^31` by the last increment. -/
theorem tokenize_overflow_state :
    (".-".toList ++ List.replicate 2147483648 ' ').foldl tokenize_step ⟨[], [], 0⟩
      = ⟨[".-".toList, [' ']], [], -2147483648⟩ := by
  have e1 : List.replicate 2147483648 ' '
      = List.replicate 2 ' ' ++ List.replicate 2147483646 ' ' :=
    List.replicate_add 2 2147483646 ' '
  have e2 : List.replicate 2147483646 ' ' = List.replicate 2147483645 ' ' ++ [' '] :=
    List.replicate_succ' 2147483645 ' '
  have h1 : ".-".toList.foldl tokenize_step ⟨[], [], 0⟩ = ⟨[], ".-".toList, 0⟩ := by decide
  have h2 : (List.replicate 2 ' ').foldl tokenize_step ⟨[], ".-".toList, 0⟩
      = ⟨[".-".toList, [' ']], [], 2⟩ := by decide
  have h3 : (List.replicate 2147483645 ' ').foldl tokenize_step ⟨[".-".toList, [' ']], [], 2⟩
      = ⟨[".-".toList, [' ']], [], 2147483647⟩ := by
    rw [tokenize_more_spaces 2147483645 _ (le_refl 2) (by decide)]
    rfl
  have h4 : tokenize_step ⟨[".-".toList, [' ']], [], 2147483647⟩ ' '
      = ⟨[".-".toList, [' ']], [], -2147483648⟩ := by decide
  rw [List.foldl_append, h1, e1, List.foldl_append, h2, e2, List.foldl_append, h3,
    List.foldl_cons, List.foldl_nil, h4]

/-- C12: at `.-`, `2^31` spaces, `.- -...` the increment `sp++` of the `int` counter wraps to
`-2^31` on the last space of the run; after that `sp>=1` and `sp==1` no longer hold, the space
inside `.- -...` closes no token, and the line decodes to `A ?`, where the same line with two
spaces decodes to `A AB`. -/
theorem spaces_overflow :
    tokenize (".-".toList ++ List.replicate 2147483648 ' ' ++ ".- -...".toList)
      = [".-".toList, [' '], ".--...".toList] ∧
    decodeLine (".-".toList ++ List.replicate 2147483648 ' ' ++ ".- -...".toList)
      = "A ?".toList ∧
    tokenize (".-".toList ++ List.replicate 2 ' ' ++ ".- -...".toList)
      = [".-".toList, [' '], ".-".toList, "-...".toList] ∧
    decodeLine (".-".toList ++ List.replicate 2 ' ' ++ ".- -...".toList) = "A AB".toList := by
  have hb : ".- -...".toList.foldl tokenize_step ⟨[".-".toList, [' ']], [], -2147483648⟩
      = ⟨[".-".toList, [' ']], ".--...".toList, -2147483647⟩ := by decide
  have hfull : (".-".toList ++ List.replicate 2147483648 ' ' ++ ".- -...".toList).foldl
      tokenize_step ⟨[], [], 0⟩
      = ⟨[".-".toList, [' ']], ".--...".toList, -2147483647⟩ := by
    rw [List.foldl_append, tokenize_overflow_state, hb]
  have htok : tokenize (".-".toList ++ List.replicate 2147483648 ' ' ++ ".- -...".toList)
      = [".-".toList, [' '], ".--...".toList] := by
    rw [tokenize_eq _ _ hfull]
    decide
  refine ⟨htok, ?_, by decide, by decide⟩
  unfold decodeLine
  rw [htok]
  decide

end MorseCode
